import Mathlib

/-!
Verification development for the CFG-recovery core (`angr/analyses/cfg_base.py`)
and the action-tracking model (`simuvex/s_action.py`).

The Python sources are shallowly embedded: Python `int` becomes `Int`,
`None`-able values become `Option`, Python sets of hashable records become
duplicate-free lists, and `networkx.DiGraph` becomes an explicit record of a
node list and a labelled edge list.  Mutation is modelled by explicit state
passing.  Where a supporting file of the repository is not available
(`s_action_object.py`, `cfg_node.py`, `knowledge.py`, `errors.py`), the
missing behaviour is modelled from the specification; each such place is
marked `Modelled from the spec:` in its doc comment.
-/

namespace Angr

/-! ## Action tracking (`simuvex/s_action.py`) -/

/-- Modelled from the spec: `SimActionObject` (from the missing
`s_action_object.py`) carries the temporary-slot and register-offset
dependency sets of one operand expression, per the spec's
"every action computes the union of temporary-slot indices and register
offsets its operand expressions depend on". -/
structure SimActionObject where
  tmp_deps : Finset Int
  reg_deps : Finset Int
deriving DecidableEq

/-- A value passed to a `SimAction` constructor: absent (`None`), a concrete
Python integer, or an already-built `SimActionObject`. -/
inductive SAParam where
  | noneP : SAParam
  | intP : Int → SAParam
  | objP : SimActionObject → SAParam
deriving DecidableEq

/-- Embeds `SimAction._make_object`: `None` stays `None`, a `SimActionObject` passes
through, and any other value is wrapped.  Modelled from the spec: wrapping a
raw value (`SimActionObject(v, reg_deps=None, tmp_deps=None)`) produces an
object with empty dependency sets. -/
def makeObject : SAParam → Option SimActionObject
  | SAParam.noneP => none
  | SAParam.intP _ => some ⟨∅, ∅⟩
  | SAParam.objP o => some o

/-- Embeds `frozenset.union(*[...])` over a list of sets: Python raises a `TypeError`
when the list is empty (no receiver for the unbound method), which the
embedding renders as `none`. -/
def unionAll : List (Finset Int) → Option (Finset Int)
  | [] => none
  | s :: rest => some (rest.foldl (fun a b => a ∪ b) s)

/-- Embeds `SimAction.tmp_deps` over a concrete list of operand objects. -/
def SimAction.tmp_deps_of (objs : List SimActionObject) : Option (Finset Int) :=
  unionAll (objs.map SimActionObject.tmp_deps)

/-- Embeds `SimAction.reg_deps` over a concrete list of operand objects. -/
def SimAction.reg_deps_of (objs : List SimActionObject) : Option (Finset Int) :=
  unionAll (objs.map SimActionObject.reg_deps)

/-- The state of a `SimActionData` after `__init__`: the stored operand
objects (already passed through `_make_object`) and the two intrinsic
dependency sets `_reg_dep` and `_tmp_dep` computed by `__init__`. -/
structure SimActionData where
  region_type : String
  action : String
  tmp : Option Int
  addr : Option SimActionObject
  size : Option SimActionObject
  data : Option SimActionObject
  condition : Option SimActionObject
  fallback : Option SimActionObject
  fd : Option SimActionObject
  regDep : Finset Int
  tmpDep : Finset Int
deriving DecidableEq

/-- Embeds `SimActionData.__init__(state, region_type, action, tmp, addr, size, data,
condition, fallback, fd)`: computes `_reg_dep` (`{addr}` when `addr` is a
concrete int and the action is `'read'`) and `_tmp_dep` (`{tmp}` when `tmp` is
given and the action is `'read'`), and wraps every operand with
`_make_object`. -/
def SimActionData.init (region_type action : String) (tmp : Option Int)
    (addr size data condition fallback fd : SAParam) : SimActionData :=
  { region_type := region_type
    action := action
    tmp := tmp
    addr := makeObject addr
    size := makeObject size
    data := makeObject data
    condition := makeObject condition
    fallback := makeObject fallback
    fd := makeObject fd
    regDep :=
      match addr with
      | SAParam.intP i => if action = "read" then {i} else ∅
      | _ => ∅
    tmpDep :=
      match tmp with
      | some t => if action = "read" then {t} else ∅
      | none => ∅ }

/-- Embeds `SimActionData.all_objects`: the non-`None` stored operand objects, in
field order `addr, size, data, condition, fallback, fd`. -/
def SimActionData.all_objects (a : SimActionData) : List SimActionObject :=
  [a.addr, a.size, a.data, a.condition, a.fallback, a.fd].reduceOption

/-- Embeds `SimActionData.tmp_deps = super().tmp_deps | self._tmp_dep`. -/
def SimActionData.tmp_deps (a : SimActionData) : Option (Finset Int) :=
  (SimAction.tmp_deps_of a.all_objects).map (fun s => s ∪ a.tmpDep)

/-- Embeds `SimActionData.reg_deps = super().reg_deps | self._reg_dep`. -/
def SimActionData.reg_deps (a : SimActionData) : Option (Finset Int) :=
  (SimAction.reg_deps_of a.all_objects).map (fun s => s ∪ a.regDep)

/-- The dependency sets exactly as claim C4's general sentence states them:
the union of the dependencies of the operand objects, with a read on a
concrete fixed register offset additionally contributing that offset to the
register side — and nothing else. -/
def claimStatedDeps (a : SimActionData) : Option (Finset Int) × Option (Finset Int) :=
  (SimAction.tmp_deps_of a.all_objects,
   (SimAction.reg_deps_of a.all_objects).map (fun s => s ∪ a.regDep))

/-- Embeds `SimActionExit.__init__`: the stored `exit_type`. -/
def simActionExitType (condition : SAParam) (exit_type : Option String) : String :=
  match exit_type with
  | some t => t
  | none => match condition with
    | SAParam.noneP => "conditional"
    | _ => "default"

/-! ## Claim C4 -/

/-- C4 counterexample: a `SimActionData` temporary read (`region 'tmp'`,
`action 'read'`, `tmp=5`, a raw data operand) reports temporary dependencies
`{5}`, while the claim's stated rule (union of operand dependencies, plus only
the concrete-register-offset contribution) yields `∅`: the code additionally
contributes the read temporary slot itself. -/
theorem C4_deps_counterexample :
    (SimActionData.init "tmp" "read" (some 5) SAParam.noneP SAParam.noneP
        (SAParam.intP 0) SAParam.noneP SAParam.noneP SAParam.noneP).tmp_deps =
      some {5} ∧
    (claimStatedDeps (SimActionData.init "tmp" "read" (some 5) SAParam.noneP
        SAParam.noneP (SAParam.intP 0) SAParam.noneP SAParam.noneP
        SAParam.noneP)).1 = some ∅ ∧
    (SimActionData.init "tmp" "read" (some 5) SAParam.noneP SAParam.noneP
        (SAParam.intP 0) SAParam.noneP SAParam.noneP SAParam.noneP).tmp_deps ≠
      (claimStatedDeps (SimActionData.init "tmp" "read" (some 5) SAParam.noneP
        SAParam.noneP (SAParam.intP 0) SAParam.noneP SAParam.noneP
        SAParam.noneP)).1 := by
  refine ⟨by decide, by decide, by decide⟩

/-- C4 (amended): the reported dependency sets are the unions of the operand
objects' dependencies, where a read on a concrete fixed register offset
additionally contributes that offset to the register side and a read with a
temporary-slot operand additionally contributes that slot to the temporary
side; in particular the register read at concrete offset 8 whose data operand
carries temporary dependency 3 reports `reg = {8}`, `tmp = {3}`, and a write
action with no read sub-expressions reports empty sets. -/
theorem C4_deps_amended :
    (∀ rt action : String, ∀ tmp : Option Int,
      ∀ addr size data condition fallback fd : SAParam,
      (SimActionData.init rt action tmp addr size data condition fallback
          fd).tmp_deps =
        (SimAction.tmp_deps_of (SimActionData.init rt action tmp addr size data
          condition fallback fd).all_objects).map
          (fun s => s ∪
            (match tmp with
             | some t => if action = "read" then {t} else ∅
             | none => ∅)) ∧
      (SimActionData.init rt action tmp addr size data condition fallback
          fd).reg_deps =
        (SimAction.reg_deps_of (SimActionData.init rt action tmp addr size data
          condition fallback fd).all_objects).map
          (fun s => s ∪
            (match addr with
             | SAParam.intP i => if action = "read" then {i} else ∅
             | _ => ∅))) ∧
    ((SimActionData.init "reg" "read" none (SAParam.intP 8) SAParam.noneP
        (SAParam.objP ⟨{3}, ∅⟩) SAParam.noneP SAParam.noneP
        SAParam.noneP).tmp_deps = some {3} ∧
     (SimActionData.init "reg" "read" none (SAParam.intP 8) SAParam.noneP
        (SAParam.objP ⟨{3}, ∅⟩) SAParam.noneP SAParam.noneP
        SAParam.noneP).reg_deps = some {8}) ∧
    ((SimActionData.init "mem" "write" none SAParam.noneP SAParam.noneP
        (SAParam.intP 7) SAParam.noneP SAParam.noneP
        SAParam.noneP).tmp_deps = some ∅ ∧
     (SimActionData.init "mem" "write" none SAParam.noneP SAParam.noneP
        (SAParam.intP 7) SAParam.noneP SAParam.noneP
        SAParam.noneP).reg_deps = some ∅) := by
  refine ⟨fun rt action tmp addr size data condition fallback fd => ⟨rfl, rfl⟩,
    ⟨by decide, by decide⟩, ⟨by decide, by decide⟩⟩

/-! ## Claim C9 -/

/-- C9: when `SimActionExit` is constructed without an explicit `exit_type`,
the stored type is `'conditional'` when no guard condition is supplied and
`'default'` when one is supplied; an explicit `exit_type` is stored
unchanged. -/
theorem C9_simActionExit_exit_type :
    (∀ t : String, ∀ condition : SAParam, simActionExitType condition (some t) = t) ∧
    (simActionExitType SAParam.noneP none = "conditional") ∧
    (∀ condition : SAParam, condition ≠ SAParam.noneP →
      simActionExitType condition none = "default") := by
  refine ⟨fun t condition => rfl, rfl, fun condition h => ?_⟩
  cases condition with
  | noneP => exact absurd rfl h
  | intP i => rfl
  | objP o => rfl

/-- C9 witness: concrete evaluations of the three cases. -/
theorem C9_simActionExit_exit_type_witness :
    simActionExitType (SAParam.intP 0) (some "custom") = "custom" ∧
    simActionExitType SAParam.noneP none = "conditional" ∧
    simActionExitType (SAParam.objP ⟨∅, ∅⟩) none = "default" :=
  ⟨C9_simActionExit_exit_type.1 "custom" (SAParam.intP 0),
   C9_simActionExit_exit_type.2.1,
   C9_simActionExit_exit_type.2.2 (SAParam.objP ⟨∅, ∅⟩) (by decide)⟩

/-! ## CFG data model (`angr/analyses/cfg_base.py`)

`CFGNode` lives in the missing `cfg_node.py`; its fields are modelled from the
spec (§3 CFGNode: address, size, context-sensitivity key, function address,
flags, instruction addresses).  Node equality is structural; the spec's
identity invariant ("two nodes are the same graph identity iff
(address, context key) match") appears as the `KeyInjective` hypothesis of the
graph theorems. -/

structure CFGNode where
  addr : Int
  size : Int
  callstack_key : Nat
  function_address : Int
  simrun_key : Int
  instruction_addrs : List Int
  is_simprocedure : Bool
  is_syscall : Bool
  looping_times : Nat
  no_ret : Option Bool
deriving DecidableEq

/-- The attribute dictionary of a CFG edge.  `jumpkind` is always present on
edges this code creates; `exit_stmt_idx` may be absent (`normalize()` adds
boring edges carrying only a jumpkind). -/
structure EdgeData where
  jumpkind : String
  exit_stmt_idx : Option Int
deriving DecidableEq

/-- A `networkx.DiGraph` over `CFGNode`s: a node list (duplicate-free in any
reachable state) and a labelled edge list with at most one edge per ordered
node pair. -/
structure Graph where
  nodes : List CFGNode
  edges : List (CFGNode × CFGNode × EdgeData)
deriving DecidableEq

/-- Per `networkx`: adding a node already present is a no-op. -/
def Graph.addNode (g : Graph) (n : CFGNode) : Graph :=
  if n ∈ g.nodes then g else { g with nodes := g.nodes ++ [n] }

/-- Embeds `networkx.DiGraph.add_edge(u, v, data)`: both endpoints are added to the
graph when absent, and an existing `(u, v)` edge has its data replaced. -/
def Graph.addEdge (g : Graph) (u v : CFGNode) (d : EdgeData) : Graph :=
  let g1 := (g.addNode u).addNode v
  { g1 with
    edges := g1.edges.filter (fun e => decide ¬(e.1 = u ∧ e.2.1 = v)) ++ [(u, v, d)] }

/-- Embeds `networkx.DiGraph.remove_edge(u, v)` (total on absent edges here; the
callers below only remove edges they just enumerated). -/
def Graph.removeEdge (g : Graph) (u v : CFGNode) : Graph :=
  { g with edges := g.edges.filter (fun e => decide ¬(e.1 = u ∧ e.2.1 = v)) }

/-- Embeds `networkx.DiGraph.remove_node(n)`: removes the node and all incident
edges. -/
def Graph.removeNode (g : Graph) (n : CFGNode) : Graph :=
  { nodes := g.nodes.filter (fun m => decide ¬(m = n))
    edges := g.edges.filter (fun e => decide ¬(e.1 = n ∨ e.2.1 = n)) }

/-- Embeds `graph.in_edges_iter([n], data=True)`. -/
def Graph.inEdges (g : Graph) (n : CFGNode) : List (CFGNode × CFGNode × EdgeData) :=
  g.edges.filter (fun e => decide (e.2.1 = n))

/-- Embeds `graph.has_edge(u, v)`. -/
def Graph.hasEdge (g : Graph) (u v : CFGNode) : Bool :=
  g.edges.any (fun e => decide (e.1 = u ∧ e.2.1 = v))

/-- Embeds `graph[u][v]`: the data of the first (unique, in reachable states) edge
from `u` to `v`. -/
def Graph.edgeData? (g : Graph) (u v : CFGNode) : Option EdgeData :=
  (g.edges.find? (fun e => decide (e.1 = u ∧ e.2.1 = v))).map (fun e => e.2.2)

/-! ## `CFGBase.get_all_nodes` (claim C10) -/

/-- Embeds `CFGBase.get_all_nodes(addr, is_syscall)`, transcribed branch-for-branch
from the source.  `is_syscall` is tri-state (`None`/`True`/`False`); Python
truthiness of the first test (`if is_syscall and cfg_node.is_syscall`) makes
it fire only for `some true`. -/
def get_all_nodes (g : Graph) (addr : Int) (is_syscall : Option Bool) :
    List CFGNode :=
  g.nodes.foldl
    (fun results cfg_node =>
      if cfg_node.addr = addr then
        if (match is_syscall with
            | some true => cfg_node.is_syscall
            | _ => false) then
          results ++ [cfg_node]
        else if is_syscall = some false ∧ ¬cfg_node.is_syscall then
          results ++ [cfg_node]
        else
          results ++ [cfg_node]
      else results)
    []

/-- A node-address filter with the restriction claim C10 attributes to
`is_syscall=False`: keep only non-syscall nodes at the address. -/
def claimStatedAllNodesFalse (g : Graph) (addr : Int) : List CFGNode :=
  g.nodes.filter (fun n => decide (n.addr = addr ∧ ¬n.is_syscall))

/-- A concrete graph holding one syscall node and one ordinary node at
address 5. -/
def allNodesCexGraph : Graph :=
  { nodes :=
      [{ addr := 5, size := 1, callstack_key := 0, function_address := 5,
         simrun_key := 5, instruction_addrs := [5], is_simprocedure := false,
         is_syscall := true, looping_times := 0, no_ret := none },
       { addr := 5, size := 1, callstack_key := 1, function_address := 5,
         simrun_key := 6, instruction_addrs := [5], is_simprocedure := false,
         is_syscall := false, looping_times := 0, no_ret := none }]
    edges := [] }

/-- C10 counterexample: on a graph with a syscall node and a non-syscall node
at address 5, `get_all_nodes(5, is_syscall=False)` still returns both nodes —
so `is_syscall=False` performs no filtering either, contradicting the claim
that only the `False` setting restricts the result to non-syscall nodes. -/
theorem C10_get_all_nodes_counterexample :
    get_all_nodes allNodesCexGraph 5 (some false) ≠
      claimStatedAllNodesFalse allNodesCexGraph 5 ∧
    (get_all_nodes allNodesCexGraph 5 (some false)).length = 2 ∧
    (claimStatedAllNodesFalse allNodesCexGraph 5).length = 1 := by
  refine ⟨by decide, by decide, by decide⟩

/-- C10 (amended): `get_all_nodes(addr, is_syscall)` returns every node whose
address equals `addr` for every setting of `is_syscall` (`None`, `True` and
`False` alike); the dead `if` chain performs no filtering at all. -/
theorem C10_get_all_nodes_amended (g : Graph) (addr : Int)
    (is_syscall : Option Bool) :
    get_all_nodes g addr is_syscall =
      g.nodes.filter (fun n => decide (n.addr = addr)) := by
  show g.nodes.foldl _ [] = _
  suffices h : ∀ ns : List CFGNode, ∀ acc : List CFGNode,
      ns.foldl
        (fun results cfg_node =>
          if cfg_node.addr = addr then
            if (match is_syscall with
                | some true => cfg_node.is_syscall
                | _ => false) then
              results ++ [cfg_node]
            else if is_syscall = some false ∧ ¬cfg_node.is_syscall then
              results ++ [cfg_node]
            else
              results ++ [cfg_node]
          else results) acc =
        acc ++ ns.filter (fun n => decide (n.addr = addr)) by
    simpa using h g.nodes []
  intro ns
  induction ns with
  | nil => intro acc; simp
  | cons n rest ih =>
    intro acc
    by_cases hn : n.addr = addr
    · have hsame :
        (if n.addr = addr then
          if (match is_syscall with
              | some true => n.is_syscall
              | _ => false) then acc ++ [n]
          else if is_syscall = some false ∧ ¬n.is_syscall then acc ++ [n]
          else acc ++ [n]
         else acc) = acc ++ [n] := by
        rw [if_pos hn]
        split
        · rfl
        · split <;> rfl
      simp only [List.foldl_cons, hsame, ih, List.filter_cons,
        decide_eq_true_eq, hn, if_pos, List.append_assoc, List.cons_append,
        List.nil_append]
      simp [hn]
    · simp only [List.foldl_cons, if_neg hn, ih, List.filter_cons]
      simp [hn]

/-- Witness for C10 (amended) at a concrete graph and setting. -/
theorem C10_get_all_nodes_amended_witness :
    get_all_nodes allNodesCexGraph 5 (some true) =
      allNodesCexGraph.nodes.filter (fun n => decide (n.addr = 5)) :=
  C10_get_all_nodes_amended allNodesCexGraph 5 (some true)

/-! ## `CFGBase.get_exit_stmt_idx` (claim C7) -/

/-- The failure modes of `get_exit_stmt_idx`: the explicit
`AngrCFGError` raise on a missing edge, and Python's `KeyError` when the edge
data carries no `'exit_stmt_idx'` entry. -/
inductive CFGErr where
  | angrCFGError : CFGErr
  | keyError : CFGErr
deriving DecidableEq

instance : DecidableEq (Except CFGErr Int) := fun a b =>
  match a, b with
  | Except.ok x, Except.ok y =>
    if h : x = y then isTrue (by rw [h]) else isFalse (by simp [h])
  | Except.error x, Except.error y =>
    if h : x = y then isTrue (by rw [h]) else isFalse (by simp [h])
  | Except.ok _, Except.error _ => isFalse (by simp)
  | Except.error _, Except.ok _ => isFalse (by simp)

/-- Embeds `CFGBase.get_exit_stmt_idx(src_block, dst_block)`: raises on a missing
edge, otherwise looks `'exit_stmt_idx'` up in the edge data.  Errors
propagate to the caller (`Except`); nothing is caught locally. -/
def get_exit_stmt_idx (g : Graph) (src_block dst_block : CFGNode) :
    Except CFGErr Int :=
  if g.hasEdge src_block dst_block then
    match g.edgeData? src_block dst_block with
    | some d =>
      match d.exit_stmt_idx with
      | some i => Except.ok i
      | none => Except.error CFGErr.keyError
    | none => Except.error CFGErr.keyError
  else
    Except.error CFGErr.angrCFGError

/-- C7 (amended): `get_exit_stmt_idx` fails with the structural
`AngrCFGError` when no direct edge exists, and on an existing edge returns
the stored exit statement index — failing with a key lookup error instead
when the edge carries none (normalization-created boring edges do); every
failure is surfaced to the caller. -/
theorem C7_get_exit_stmt_idx_amended (g : Graph) (src dst : CFGNode) :
    (g.hasEdge src dst = false →
      get_exit_stmt_idx g src dst = Except.error CFGErr.angrCFGError) ∧
    (∀ d : EdgeData, g.edgeData? src dst = some d →
      get_exit_stmt_idx g src dst =
        match d.exit_stmt_idx with
        | some i => Except.ok i
        | none => Except.error CFGErr.keyError) := by
  constructor
  · intro h
    unfold get_exit_stmt_idx
    rw [h]
    rfl
  · intro d hd
    have hfind := hd
    unfold Graph.edgeData? at hfind
    rcases hfound : g.edges.find? (fun e => decide (e.1 = src ∧ e.2.1 = dst))
      with _ | e
    · rw [hfound] at hfind; exact absurd hfind (by simp)
    · have hmem := List.mem_of_find?_eq_some hfound
      have hprop := List.find?_some hfound
      have hedge : g.hasEdge src dst = true := by
        unfold Graph.hasEdge
        rw [List.any_eq_true]
        exact ⟨e, hmem, hprop⟩
      unfold get_exit_stmt_idx
      rw [hedge, if_pos rfl, hd]

/-! ## `CFGBase.normalize` (claims C1, C2, C6) -/

/-- The `end_addresses` bookkeeping of `normalize()`: a Python
`defaultdict((end_address, callstack_key) -> set of nodes)`, embedded as an
insertion-ordered association list of duplicate-free member lists. -/
abbrev Book := List ((Int × Nat) × List CFGNode)

/-- Lookup of a group; an absent key behaves as the empty set (the source
guards every read with `tpl in end_addresses` or only reads keys it added). -/
def groupOf (book : Book) (κ : Int × Nat) : List CFGNode :=
  match book.find? (fun e => decide (e.1 = κ)) with
  | some e => e.2
  | none => []

/-- Embeds `end_addresses[κ].add(n)`: set insertion (no duplicates), creating the
entry when absent. -/
def addGroup (κ : Int × Nat) (n : CFGNode) : Book → Book
  | [] => [(κ, [n])]
  | e :: rest =>
    if e.1 = κ then
      (if n ∈ e.2 then e :: rest else (κ, e.2 ++ [n]) :: rest)
    else
      e :: addGroup κ n rest

/-- Embeds `end_addresses[κ] = ns`. -/
def setGroup (κ : Int × Nat) (ns : List CFGNode) : Book → Book
  | [] => [(κ, ns)]
  | e :: rest => if e.1 = κ then (κ, ns) :: rest else e :: setGroup κ ns rest

/-- The `while any(len(x) > 1 ...)` scan combined with the
`for tpl, x in end_addresses.iteritems(): if len(x) > 1: break` pick: the
first group (in insertion order) with more than one member. -/
def findConflict (book : Book) : Option (Int × Nat) :=
  (book.find? (fun e => decide (1 < e.2.length))).map (fun e => e.1)

/-- The grouping key `(end_addr, callstack_key) = (n.addr + n.size,
n.callstack_key)`. -/
def nodeKey (n : CFGNode) : Int × Nat :=
  (n.addr + n.size, n.callstack_key)

/-- The initial `end_addresses` map: every non-SimProcedure node of the graph
grouped by `nodeKey`. -/
def initBook (nodes : List CFGNode) : Book :=
  nodes.foldl
    (fun book n => if n.is_simprocedure then book else addGroup (nodeKey n) n book)
    []

/-- The sort key of `sorted(all_nodes, key=lambda node: node.size)`. -/
def sizeLE (a b : CFGNode) : Prop :=
  a.size ≤ b.size

instance : DecidableRel sizeLE := fun a b =>
  inferInstanceAs (Decidable (a.size ≤ b.size))

instance : IsTotal CFGNode sizeLE :=
  ⟨fun a b => Int.le_total a.size b.size⟩

instance : IsTrans CFGNode sizeLE :=
  ⟨fun _ _ _ => Int.le_trans⟩

/-- Embeds `sorted(all_nodes, key=lambda node: node.size)` (the tie order of the
Python set iteration is immaterial: conflicting group members have pairwise
distinct sizes in every reachable state). -/
def sortBySize (l : List CFGNode) : List CFGNode :=
  l.insertionSort sizeLE

/-- The truncated replacement node built at `normalize()` lines 693-699: same
start address, the new size, the group's callstack key, the original function
address and SimRun key, and only the instruction addresses strictly below the
new end.  Modelled from the spec: the remaining `CFGNode` constructor
defaults (not a SimProcedure, not a syscall, zero loop iterations, unknown
no-return) follow §3's lifecycle of a freshly created plain block node. -/
def truncatedNode (n : CFGNode) (new_size : Int) (callstack_key : Nat) : CFGNode :=
  { addr := n.addr
    size := new_size
    callstack_key := callstack_key
    function_address := n.function_address
    simrun_key := n.simrun_key
    instruction_addrs :=
      n.instruction_addrs.filter (fun ins_addr => decide (ins_addr < n.addr + new_size))
    is_simprocedure := false
    is_syscall := false
    looping_times := 0
    no_ret := none }

/-- The mutable state of one `normalize()` call: the CFG and the
`end_addresses` bookkeeping. -/
structure NormState where
  g : Graph
  book : Book
deriving DecidableEq

/-- The body of `for n in other_nodes` in `normalize()`: truncate one
conflicting node `n` against the group's smallest member — reuse an existing
node at the new end address when one starts at the same address, otherwise
create one; remove the original incoming edges and the node; re-add the
incoming edges onto the truncated node, plus a boring edge to the group
member at the smallest member's address. -/
def breakNode (callstack_key : Nat) (smallest_node : CFGNode)
    (all_nodes : List CFGNode) (st : NormState) (n : CFGNode) : NormState :=
  let new_size : Int := smallest_node.addr - n.addr
  if new_size = 0 then st
  else
    let (new_node, book1) :=
      match (groupOf st.book (n.addr + new_size, n.callstack_key)).filter
        (fun i => decide (i.addr = n.addr)) with
      | i :: _ => (i, st.book)
      | [] =>
        (truncatedNode n new_size callstack_key,
         addGroup (n.addr + new_size, n.callstack_key)
           (truncatedNode n new_size callstack_key) st.book)
    let original_predecessors := st.g.inEdges n
    let g1 := original_predecessors.foldl (fun g e => g.removeEdge e.1 e.2.1) st.g
    let g2 := g1.removeNode n
    let g3 := original_predecessors.foldl (fun g e => g.addEdge e.1 new_node e.2.2) g2
    let g4 :=
      match all_nodes.filter (fun i => decide (i.addr = smallest_node.addr)) with
      | new_successor :: _ => g3.addEdge new_node new_successor ⟨"Ijk_Boring", none⟩
      | [] => g3
    { g := g4, book := book1 }

/-- One round of the `while` loop on the picked conflicting group: sort the
members ascending by size, keep the smallest as-is, break every other member,
then reset the group to the singleton of its smallest member. -/
def processGroup (κ : Int × Nat) (st : NormState) : NormState :=
  match sortBySize (groupOf st.book κ) with
  | [] => st
  | smallest_node :: other_nodes =>
    let st1 := other_nodes.foldl
      (breakNode κ.2 smallest_node (sortBySize (groupOf st.book κ))) st
    { st1 with book := setGroup κ [smallest_node] st1.book }

/-- The `while` loop of `normalize()`, driven by explicit fuel; the fuel
supplied by `normalize` dominates the loop's strictly decreasing size
measure, so the loop always reaches its fixpoint (no conflicting group). -/
def normalizeLoop : Nat → NormState → NormState
  | 0, st => st
  | fuel + 1, st =>
    match findConflict st.book with
    | none => st
    | some κ => normalizeLoop fuel (processGroup κ st)

/-- The termination measure: total size mass recorded in the bookkeeping. -/
def bookMeasure (book : Book) : Nat :=
  (book.map (fun e => (e.2.map (fun n => n.size.toNat)).sum)).sum

/-- Embeds `CFGBase.normalize()` restricted to its graph effect (the `self._nodes`
index updates touch no state any claim mentions). -/
def normalize (g : Graph) : Graph :=
  (normalizeLoop (bookMeasure (initBook g.nodes) + 1)
    { g := g, book := initBook g.nodes }).g

/-! ### Bookkeeping lemmas -/

/-- Total size mass of a member list (the loop's termination measure is the
sum of these over all groups). -/
def massList (l : List CFGNode) : Nat :=
  (l.map (fun n => n.size.toNat)).sum

theorem bookMeasure_eq (b : Book) :
    bookMeasure b = (b.map (fun e => massList e.2)).sum := rfl

theorem groupOf_nil (κ : Int × Nat) : groupOf [] κ = [] := rfl

theorem groupOf_cons (e : (Int × Nat) × List CFGNode) (b : Book)
    (κ : Int × Nat) :
    groupOf (e :: b) κ = if e.1 = κ then e.2 else groupOf b κ := by
  by_cases he : e.1 = κ <;> simp [groupOf, List.find?_cons, he]

theorem groupOf_addGroup_ne (b : Book) (κ κ' : Int × Nat) (n : CFGNode)
    (h : κ' ≠ κ) : groupOf (addGroup κ n b) κ' = groupOf b κ' := by
  induction b with
  | nil =>
    simp only [addGroup, groupOf_cons]
    rw [if_neg (fun hc => h hc.symm)]
  | cons e rest ih =>
    by_cases he : e.1 = κ
    · by_cases hn : n ∈ e.2
      · simp only [addGroup]
        rw [if_pos he, if_pos hn]
      · simp only [addGroup]
        rw [if_pos he, if_neg hn, groupOf_cons, groupOf_cons]
        rw [if_neg (fun hc => h hc.symm)]
        rw [if_neg (fun hc => h (he.symm.trans hc).symm)]
    · simp only [addGroup]
      rw [if_neg he, groupOf_cons, groupOf_cons, ih]

theorem groupOf_addGroup_self (b : Book) (κ : Int × Nat) (n : CFGNode) :
    groupOf (addGroup κ n b) κ =
      if n ∈ groupOf b κ then groupOf b κ else groupOf b κ ++ [n] := by
  induction b with
  | nil =>
    simp only [addGroup, groupOf_cons, groupOf_nil]
    simp
  | cons e rest ih =>
    by_cases he : e.1 = κ
    · by_cases hn : n ∈ e.2
      · simp only [addGroup]
        rw [if_pos he, if_pos hn, groupOf_cons, if_pos he, if_pos hn]
      · simp only [addGroup]
        rw [if_pos he, if_neg hn, groupOf_cons, if_pos rfl]
        rw [groupOf_cons, if_pos he, if_neg hn]
    · simp only [addGroup]
      rw [if_neg he, groupOf_cons, if_neg he, ih]
      rw [groupOf_cons, if_neg he]

theorem groupOf_setGroup_self (b : Book) (κ : Int × Nat) (ns : List CFGNode) :
    groupOf (setGroup κ ns b) κ = ns := by
  induction b with
  | nil =>
    simp only [setGroup, groupOf_cons]
    simp
  | cons e rest ih =>
    by_cases he : e.1 = κ
    · simp only [setGroup]
      rw [if_pos he, groupOf_cons, if_pos rfl]
    · simp only [setGroup]
      rw [if_neg he, groupOf_cons, if_neg he, ih]

theorem groupOf_setGroup_ne (b : Book) (κ κ' : Int × Nat) (ns : List CFGNode)
    (h : κ' ≠ κ) : groupOf (setGroup κ ns b) κ' = groupOf b κ' := by
  induction b with
  | nil =>
    simp only [setGroup, groupOf_cons]
    rw [if_neg (fun hc => h hc.symm)]
  | cons e rest ih =>
    by_cases he : e.1 = κ
    · simp only [setGroup]
      rw [if_pos he, groupOf_cons, groupOf_cons]
      rw [if_neg (fun hc => h hc.symm)]
      rw [if_neg (fun hc => h (he.symm.trans hc).symm)]
    · simp only [setGroup]
      rw [if_neg he, groupOf_cons, groupOf_cons, ih]

theorem addGroup_keys (b : Book) (κ : Int × Nat) (n : CFGNode) :
    (addGroup κ n b).map Prod.fst =
      if κ ∈ b.map Prod.fst then b.map Prod.fst else b.map Prod.fst ++ [κ] := by
  induction b with
  | nil => simp [addGroup]
  | cons e rest ih =>
    by_cases he : e.1 = κ
    · by_cases hn : n ∈ e.2 <;> simp [addGroup, he, hn]
    · simp only [addGroup, if_neg he, List.map_cons, ih, List.mem_cons]
      by_cases hk : κ ∈ rest.map Prod.fst <;>
        simp [hk, he, show ¬(κ = e.1) from fun hc => he hc.symm]

theorem setGroup_keys (b : Book) (κ : Int × Nat) (ns : List CFGNode) :
    (setGroup κ ns b).map Prod.fst =
      if κ ∈ b.map Prod.fst then b.map Prod.fst else b.map Prod.fst ++ [κ] := by
  induction b with
  | nil => simp [setGroup]
  | cons e rest ih =>
    by_cases he : e.1 = κ
    · simp [setGroup, he]
    · simp only [setGroup, if_neg he, List.map_cons, ih, List.mem_cons]
      by_cases hk : κ ∈ rest.map Prod.fst <;>
        simp [hk, he, show ¬(κ = e.1) from fun hc => he hc.symm]

theorem addGroup_keys_nodup (b : Book) (κ : Int × Nat) (n : CFGNode)
    (h : (b.map Prod.fst).Nodup) : ((addGroup κ n b).map Prod.fst).Nodup := by
  rw [addGroup_keys]
  by_cases hk : κ ∈ b.map Prod.fst
  · simpa [hk] using h
  · simpa [hk] using List.Nodup.append h (List.nodup_singleton κ)
      (fun x hx hxx => hk ((List.mem_singleton.1 hxx) ▸ hx))

theorem setGroup_keys_nodup (b : Book) (κ : Int × Nat) (ns : List CFGNode)
    (h : (b.map Prod.fst).Nodup) : ((setGroup κ ns b).map Prod.fst).Nodup := by
  rw [setGroup_keys]
  by_cases hk : κ ∈ b.map Prod.fst
  · simpa [hk] using h
  · simpa [hk] using List.Nodup.append h (List.nodup_singleton κ)
      (fun x hx hxx => hk ((List.mem_singleton.1 hxx) ▸ hx))

theorem addGroup_groups_nodup (b : Book) (κ : Int × Nat) (n : CFGNode)
    (h : ∀ e ∈ b, e.2.Nodup) : ∀ e ∈ addGroup κ n b, e.2.Nodup := by
  induction b with
  | nil =>
    intro e he
    simp only [addGroup, List.mem_singleton] at he
    simp [he]
  | cons f rest ih =>
    intro e he
    by_cases hf : f.1 = κ
    · by_cases hn : n ∈ f.2
      · rw [addGroup, if_pos hf, if_pos hn] at he
        exact h e he
      · rw [addGroup, if_pos hf, if_neg hn] at he
        rcases List.mem_cons.1 he with h1 | h1
        · subst h1
          exact List.Nodup.append (h f (List.mem_cons_self f rest))
            (List.nodup_singleton n)
            (fun x hx hxx => hn ((List.mem_singleton.1 hxx) ▸ hx))
        · exact h e (List.mem_cons_of_mem f h1)
    · rw [addGroup, if_neg hf] at he
      rcases List.mem_cons.1 he with h1 | h1
      · subst h1; exact h e (List.mem_cons_self e rest)
      · exact ih (fun x hx => h x (List.mem_cons_of_mem f hx)) e h1

theorem setGroup_groups_nodup (b : Book) (κ : Int × Nat) (ns : List CFGNode)
    (h : ∀ e ∈ b, e.2.Nodup) (hns : ns.Nodup) :
    ∀ e ∈ setGroup κ ns b, e.2.Nodup := by
  induction b with
  | nil =>
    intro e he
    simp only [setGroup, List.mem_singleton] at he
    simp [he, hns]
  | cons f rest ih =>
    intro e he
    by_cases hf : f.1 = κ
    · rw [setGroup, if_pos hf] at he
      rcases List.mem_cons.1 he with h1 | h1
      · subst h1; exact hns
      · exact h e (List.mem_cons_of_mem f h1)
    · rw [setGroup, if_neg hf] at he
      rcases List.mem_cons.1 he with h1 | h1
      · subst h1; exact h e (List.mem_cons_self e rest)
      · exact ih (fun x hx => h x (List.mem_cons_of_mem f hx)) e h1

theorem groupOf_nodup (b : Book) (κ : Int × Nat) (h : ∀ e ∈ b, e.2.Nodup) :
    (groupOf b κ).Nodup := by
  rcases hf : b.find? (fun e => decide (e.1 = κ)) with _ | e
  · simp [groupOf, hf]
  · rw [show groupOf b κ = e.2 from by simp [groupOf, hf]]
    exact h e (List.mem_of_find?_eq_some hf)

theorem groupOf_of_mem (b : Book) (e : (Int × Nat) × List CFGNode)
    (hkeys : (b.map Prod.fst).Nodup) (he : e ∈ b) : groupOf b e.1 = e.2 := by
  induction b with
  | nil => cases he
  | cons f rest ih =>
    rcases List.mem_cons.1 he with h1 | h1
    · subst h1
      simp [groupOf, List.find?_cons]
    · have hf1 : f.1 ≠ e.1 := by
        intro hc
        have : e.1 ∈ rest.map Prod.fst := List.mem_map_of_mem Prod.fst h1
        rw [← hc] at this
        exact (List.nodup_cons.1 hkeys).1 this
      have := ih (List.nodup_cons.1 hkeys).2 h1
      simpa [groupOf, List.find?_cons, hf1] using this

theorem findConflict_eq_none_iff (b : Book) :
    findConflict b = none ↔ ∀ e ∈ b, e.2.length ≤ 1 := by
  unfold findConflict
  rw [Option.map_eq_none']
  rw [List.find?_eq_none]
  constructor
  · intro h e he
    have := h e he
    simp only [decide_eq_true_eq] at this
    omega
  · intro h e he
    simp only [decide_eq_true_eq]
    have := h e he
    omega

theorem findConflict_spec (b : Book) (κ : Int × Nat)
    (hkeys : (b.map Prod.fst).Nodup) (h : findConflict b = some κ) :
    1 < (groupOf b κ).length := by
  unfold findConflict at h
  rcases hf : b.find? (fun e => decide (1 < e.2.length)) with _ | e
  · rw [hf] at h; cases h
  · rw [hf] at h
    have he1 : e.1 = κ := by simpa using h
    have hmem := List.mem_of_find?_eq_some hf
    have hprop := List.find?_some hf
    simp only [decide_eq_true_eq] at hprop
    rw [← he1, groupOf_of_mem b e hkeys hmem]
    exact hprop

theorem bookMeasure_addGroup (b : Book) (κ : Int × Nat) (n : CFGNode)
    (h : n ∉ groupOf b κ) :
    bookMeasure (addGroup κ n b) = bookMeasure b + n.size.toNat := by
  induction b with
  | nil => simp [addGroup, bookMeasure, massList]
  | cons e rest ih =>
    by_cases he : e.1 = κ
    · have hgo : groupOf (e :: rest) κ = e.2 := by
        simp [groupOf, List.find?_cons, he]
      rw [hgo] at h
      rw [addGroup, if_pos he, if_neg h]
      simp [bookMeasure, massList]
      omega
    · have hgo : groupOf (e :: rest) κ = groupOf rest κ := by
        simp [groupOf, List.find?_cons, he]
      rw [hgo] at h
      rw [addGroup, if_neg he]
      have := ih h
      simp only [bookMeasure, List.map_cons, List.sum_cons] at *
      omega

theorem bookMeasure_setGroup (b : Book) (κ : Int × Nat) (ns : List CFGNode)
    (hmem : κ ∈ b.map Prod.fst) :
    bookMeasure (setGroup κ ns b) + massList (groupOf b κ) =
      bookMeasure b + massList ns := by
  induction b with
  | nil => cases hmem
  | cons e rest ih =>
    by_cases he : e.1 = κ
    · have hgo : groupOf (e :: rest) κ = e.2 := by
        simp [groupOf, List.find?_cons, he]
      rw [hgo, setGroup, if_pos he]
      simp [bookMeasure, massList]
      omega
    · have hgo : groupOf (e :: rest) κ = groupOf rest κ := by
        simp [groupOf, List.find?_cons, he]
      have hmem2 : κ ∈ rest.map Prod.fst := by
        rw [List.map_cons, List.mem_cons] at hmem
        rcases hmem with h1 | h1
        · exact absurd h1.symm he
        · exact h1
      rw [hgo, setGroup, if_neg he]
      have := ih hmem2
      simp only [bookMeasure, List.map_cons, List.sum_cons] at *
      omega

/-! ### Graph lemmas -/

/-- The non-SimProcedure nodes of the graph in a given
(end address, context key) group. -/
def graphGroup (g : Graph) (κ : Int × Nat) : List CFGNode :=
  g.nodes.filter (fun n => decide (n.is_simprocedure = false ∧ nodeKey n = κ))

/-- The spec's node-identity invariant: two nodes are the same graph identity
iff their (address, context key) pairs match, so no two distinct nodes of a
well-formed graph share both. -/
def KeyInjective (g : Graph) : Prop :=
  ∀ n ∈ g.nodes, ∀ m ∈ g.nodes,
    n.addr = m.addr → n.callstack_key = m.callstack_key → n = m

/-- Structural well-formedness of a reachable CFG state: a duplicate-free
node set, edges between present nodes with at most one edge per ordered pair
and no self-loops, the spec's node-identity invariant, and positive sizes on
processed (non-SimProcedure) blocks. -/
def GraphWF (g : Graph) : Prop :=
  g.nodes.Nodup ∧
  (∀ x ∈ g.edges, x.1 ∈ g.nodes ∧ x.2.1 ∈ g.nodes) ∧
  (g.edges.map (fun x => (x.1, x.2.1))).Nodup ∧
  KeyInjective g ∧
  (∀ n ∈ g.nodes, n.is_simprocedure = false → 0 < n.size) ∧
  (∀ x ∈ g.edges, x.1 ≠ x.2.1)

theorem addNode_edges (g : Graph) (n : CFGNode) :
    (g.addNode n).edges = g.edges := by
  unfold Graph.addNode
  split <;> rfl

theorem addNode_nodes_of_mem (g : Graph) (n : CFGNode) (h : n ∈ g.nodes) :
    (g.addNode n).nodes = g.nodes := by
  unfold Graph.addNode
  rw [if_pos h]

theorem addNode_nodes_of_not_mem (g : Graph) (n : CFGNode) (h : n ∉ g.nodes) :
    (g.addNode n).nodes = g.nodes ++ [n] := by
  unfold Graph.addNode
  rw [if_neg h]

theorem addEdge_edges (g : Graph) (u v : CFGNode) (d : EdgeData) :
    (g.addEdge u v d).edges =
      g.edges.filter (fun e => decide ¬(e.1 = u ∧ e.2.1 = v)) ++ [(u, v, d)] := by
  show ((g.addNode u).addNode v).edges.filter _ ++ _ = _
  rw [addNode_edges, addNode_edges]

theorem addEdge_nodes_of_mem (g : Graph) (u v : CFGNode) (d : EdgeData)
    (hu : u ∈ g.nodes) (hv : v ∈ g.nodes) :
    (g.addEdge u v d).nodes = g.nodes := by
  show ((g.addNode u).addNode v).nodes = g.nodes
  rw [addNode_nodes_of_mem (g.addNode u) v
    (by rw [addNode_nodes_of_mem g u hu]; exact hv)]
  exact addNode_nodes_of_mem g u hu

theorem addEdge_nodes_of_mem_left (g : Graph) (u v : CFGNode) (d : EdgeData)
    (hu : u ∈ g.nodes) (hv : v ∉ g.nodes) :
    (g.addEdge u v d).nodes = g.nodes ++ [v] := by
  show ((g.addNode u).addNode v).nodes = g.nodes ++ [v]
  rw [addNode_nodes_of_not_mem (g.addNode u) v
    (by rw [addNode_nodes_of_mem g u hu]; exact hv)]
  rw [addNode_nodes_of_mem g u hu]

theorem removeEdges_fold_nodes (P : List (CFGNode × CFGNode × EdgeData))
    (g : Graph) :
    (P.foldl (fun h e => h.removeEdge e.1 e.2.1) g).nodes = g.nodes := by
  induction P generalizing g with
  | nil => rfl
  | cons e P ih => exact ih (g.removeEdge e.1 e.2.1)

theorem removeEdges_fold_edges (P : List (CFGNode × CFGNode × EdgeData))
    (g : Graph) :
    (P.foldl (fun h e => h.removeEdge e.1 e.2.1) g).edges =
      g.edges.filter
        (fun x => decide (∀ e ∈ P, ¬(x.1 = e.1 ∧ x.2.1 = e.2.1))) := by
  induction P generalizing g with
  | nil => simp
  | cons e P ih =>
    rw [List.foldl_cons, ih]
    rw [show (g.removeEdge e.1 e.2.1).edges =
      g.edges.filter (fun x => decide ¬(x.1 = e.1 ∧ x.2.1 = e.2.1)) from rfl]
    rw [List.filter_filter]
    apply List.filter_congr
    intro x _
    rw [Bool.and_comm, ← Bool.decide_and, decide_eq_decide]
    constructor
    · rintro ⟨h1, h2⟩ y hy
      rcases List.mem_cons.1 hy with h3 | h3
      · exact h3 ▸ h1
      · exact h2 y h3
    · intro hall
      exact ⟨hall e (List.mem_cons_self e P),
        fun y hy => hall y (List.mem_cons_of_mem e hy)⟩

theorem removeInEdges_fold_edges (g : Graph) (n : CFGNode) :
    ((g.inEdges n).foldl (fun h e => h.removeEdge e.1 e.2.1) g).edges =
      g.edges.filter (fun x => decide ¬(x.2.1 = n)) := by
  rw [removeEdges_fold_edges]
  apply List.filter_congr
  intro x hx
  rw [decide_eq_decide]
  constructor
  · intro h hdst
    exact h x (by simp [Graph.inEdges, List.mem_filter, hx, hdst]) ⟨rfl, rfl⟩
  · intro hdst e he hc
    apply hdst
    have he2 : e.2.1 = n := by
      have := (List.mem_filter.1 he).2
      simpa using this
    rw [hc.2, he2]

theorem removeNode_nodes (g : Graph) (n : CFGNode) :
    (g.removeNode n).nodes = g.nodes.filter (fun m => decide ¬(m = n)) := rfl

theorem removeNode_edges (g : Graph) (n : CFGNode) :
    (g.removeNode n).edges =
      g.edges.filter (fun e => decide ¬(e.1 = n ∨ e.2.1 = n)) := rfl

theorem addEdges_to_fold (nn : CFGNode)
    (P : List (CFGNode × CFGNode × EdgeData)) :
    ∀ h : Graph, (∀ e ∈ P, e.1 ∈ h.nodes) → (P.map (fun e => e.1)).Nodup →
    (∀ x ∈ h.edges, x.2.1 = nn → x.1 ∉ P.map (fun e => e.1)) →
    nn ∈ h.nodes →
    (P.foldl (fun g e => g.addEdge e.1 nn e.2.2) h).nodes = h.nodes ∧
    (P.foldl (fun g e => g.addEdge e.1 nn e.2.2) h).edges =
      h.edges ++ P.map (fun e => (e.1, nn, e.2.2)) := by
  induction P with
  | nil => intro h _ _ _ _; simp
  | cons e P ih =>
    intro h hsrc hnodup hold hnn
    have hfilt : h.edges.filter
        (fun x => decide ¬(x.1 = e.1 ∧ x.2.1 = nn)) = h.edges := by
      apply List.filter_eq_self.mpr
      intro x hx
      simp only [decide_eq_true_eq]
      intro hc
      apply hold x hx hc.2
      rw [hc.1]
      exact List.mem_map_of_mem _ (List.mem_cons_self e P)
    have h1nodes : (h.addEdge e.1 nn e.2.2).nodes = h.nodes :=
      addEdge_nodes_of_mem h e.1 nn e.2.2
        (hsrc e (List.mem_cons_self e P)) hnn
    have h1edges : (h.addEdge e.1 nn e.2.2).edges =
        h.edges ++ [(e.1, nn, e.2.2)] := by
      rw [addEdge_edges, hfilt]
    have hrec := ih (h.addEdge e.1 nn e.2.2)
      (by intro x hx; rw [h1nodes]
          exact hsrc x (List.mem_cons_of_mem e hx))
      (by exact (List.nodup_cons.1 (by simpa using hnodup)).2)
      (by intro x hx hdst
          rw [h1edges] at hx
          rcases List.mem_append.1 hx with h2 | h2
          · intro hmem
            exact hold x h2 hdst
              (by rcases List.mem_map.1 hmem with ⟨y, hy, hyy⟩
                  exact hyy ▸ List.mem_map_of_mem _ (List.mem_cons_of_mem e hy))
          · intro hmem
            have hx1 : x.1 = e.1 := by
              rcases List.mem_singleton.1 h2 with h3
              rw [h3]
            have : e.1 ∈ P.map (fun e => e.1) := hx1 ▸ hmem
            exact (List.nodup_cons.1 (by simpa using hnodup)).1 this)
      (by rw [h1nodes]; exact hnn)
    rw [List.foldl_cons]
    refine ⟨by rw [hrec.1, h1nodes], ?_⟩
    rw [hrec.2, h1edges]
    simp

/-! ### Characterizing one `for n in other_nodes` iteration -/

/-- The facts available about the state and the two nodes whenever
`normalize()` breaks node `n` against the smallest member of the conflicting
group `(e, k)`. -/
structure BreakHyps (e : Int) (k : Nat) (smallest n : CFGNode)
    (st : NormState) : Prop where
  hG : GraphWF st.g
  hmatch : ∀ κ' : Int × Nat, κ' ≠ (e, k) →
    (groupOf st.book κ').toFinset = (graphGroup st.g κ').toFinset
  hn_mem : n ∈ st.g.nodes
  hn_key : n.callstack_key = k
  hn_end : n.addr + n.size = e
  hn_sp : n.is_simprocedure = false
  hsm_mem : smallest ∈ st.g.nodes
  hsm_key : smallest.callstack_key = k
  hsm_end : smallest.addr + smallest.size = e
  hsm_sp : smallest.is_simprocedure = false
  hsm_pos : 0 < smallest.size
  hlt : smallest.size < n.size

theorem mem_graphGroup_iff (g : Graph) (κ : Int × Nat) (x : CFGNode) :
    x ∈ graphGroup g κ ↔
      x ∈ g.nodes ∧ x.is_simprocedure = false ∧ x.addr + x.size = κ.1 ∧
        x.callstack_key = κ.2 := by
  unfold graphGroup
  rw [List.mem_filter]
  simp only [decide_eq_true_eq]
  constructor
  · rintro ⟨h1, h2, h3⟩
    exact ⟨h1, h2, congrArg Prod.fst h3, congrArg Prod.snd h3⟩
  · rintro ⟨h1, h2, h3, h4⟩
    exact ⟨h1, h2, Prod.ext h3 h4⟩

theorem truncated_not_mem {e : Int} {k : Nat} {smallest n : CFGNode}
    {st : NormState} (H : BreakHyps e k smallest n st) :
    truncatedNode n (smallest.addr - n.addr) k ∉ st.g.nodes := by
  intro hmem
  have hinj := H.hG.2.2.2.1
  have heq := hinj (truncatedNode n (smallest.addr - n.addr) k) hmem n H.hn_mem
    rfl (by rw [H.hn_key]; rfl)
  have hsz := congrArg CFGNode.size heq
  have : (truncatedNode n (smallest.addr - n.addr) k).size =
      smallest.addr - n.addr := rfl
  rw [this] at hsz
  have h1 := H.hn_end
  have h2 := H.hsm_end
  have h3 := H.hsm_pos
  omega

theorem reuse_filter_empty {e : Int} {k : Nat} {smallest n : CFGNode}
    {st : NormState} (H : BreakHyps e k smallest n st) :
    (groupOf st.book (n.addr + (smallest.addr - n.addr),
      n.callstack_key)).filter (fun i => decide (i.addr = n.addr)) = [] := by
  have htpl : (n.addr + (smallest.addr - n.addr), n.callstack_key) =
      ((smallest.addr, k) : Int × Nat) := by
    rw [Prod.mk.injEq]
    exact ⟨by omega, H.hn_key⟩
  rw [htpl]
  rw [List.filter_eq_nil_iff]
  intro i hi
  simp only [decide_eq_true_eq]
  intro haddr
  have hne : ((smallest.addr, k) : Int × Nat) ≠ (e, k) := by
    rw [Ne, Prod.mk.injEq]
    rintro ⟨h1, -⟩
    have := H.hsm_end
    have := H.hsm_pos
    omega
  have hiG : i ∈ graphGroup st.g (smallest.addr, k) := by
    rw [← List.mem_toFinset, ← H.hmatch (smallest.addr, k) hne,
      List.mem_toFinset]
    exact hi
  rw [mem_graphGroup_iff] at hiG
  have hinj := H.hG.2.2.2.1
  have heq := hinj i hiG.1 n H.hn_mem haddr
    (by rw [hiG.2.2.2, H.hn_key])
  rw [heq] at hiG
  have h1 := H.hn_end
  have h2 := H.hsm_end
  have h3 := H.hsm_pos
  omega

theorem breakNode_eq {e : Int} {k : Nat} {smallest n : CFGNode}
    {st : NormState} (all_nodes tl : List CFGNode)
    (H : BreakHyps e k smallest n st)
    (hfl : all_nodes.filter (fun i => decide (i.addr = smallest.addr)) =
      smallest :: tl) :
    breakNode k smallest all_nodes st n =
      { g := Graph.addEdge
          ((st.g.inEdges n).foldl
            (fun g x => g.addEdge x.1
              (truncatedNode n (smallest.addr - n.addr) k) x.2.2)
            ((((st.g.inEdges n).foldl
              (fun h x => h.removeEdge x.1 x.2.1) st.g)).removeNode n))
          (truncatedNode n (smallest.addr - n.addr) k) smallest
          { jumpkind := "Ijk_Boring", exit_stmt_idx := none }
        book := addGroup (n.addr + (smallest.addr - n.addr), n.callstack_key)
          (truncatedNode n (smallest.addr - n.addr) k) st.book } := by
  have hnz : ¬(smallest.addr - n.addr = 0) := by
    have h1 := H.hn_end
    have h2 := H.hsm_end
    have h3 := H.hlt
    omega
  unfold breakNode
  rw [if_neg hnz, reuse_filter_empty H, hfl]

theorem addEdge_nodes_of_not_mem_left (g : Graph) (u v : CFGNode)
    (d : EdgeData) (hu : u ∉ g.nodes) (hv : v ∈ g.nodes) :
    (g.addEdge u v d).nodes = g.nodes ++ [u] := by
  show ((g.addNode u).addNode v).nodes = g.nodes ++ [u]
  rw [addNode_nodes_of_mem (g.addNode u) v
    (by rw [addNode_nodes_of_not_mem g u hu]
        exact List.mem_append_left _ hv)]
  exact addNode_nodes_of_not_mem g u hu

theorem inEdges_mem (g : Graph) (n : CFGNode) (x : CFGNode × CFGNode × EdgeData)
    (hx : x ∈ g.inEdges n) : x ∈ g.edges ∧ x.2.1 = n := by
  have h := List.mem_filter.1 hx
  exact ⟨h.1, by simpa using h.2⟩

theorem preds_src_nodup (g : Graph) (n : CFGNode) (hG : GraphWF g) :
    ((g.inEdges n).map (fun x => x.1)).Nodup := by
  have hpairs : ((g.inEdges n).map (fun x => (x.1, x.2.1))).Nodup :=
    ((List.filter_sublist g.edges).map (fun x => (x.1, x.2.1))).nodup hG.2.2.1
  have hsnd : ∀ z ∈ (g.inEdges n).map (fun x => (x.1, x.2.1)), z.2 = n := by
    intro z hz
    rcases List.mem_map.1 hz with ⟨x, hx, hxx⟩
    rw [← hxx]
    exact (inEdges_mem g n x hx).2
  have hres : ((g.inEdges n).map (fun x => (x.1, x.2.1))).map Prod.fst =
      (g.inEdges n).map (fun x => x.1) := by
    rw [List.map_map]; rfl
  rw [← hres]
  apply List.Nodup.map_on
  · intro x hx y hy hxy
    have h1 := hsnd x hx
    have h2 := hsnd y hy
    exact Prod.ext hxy (h1.trans h2.symm)
  · exact hpairs

/-- The full effect of one `for n in other_nodes` iteration on the state:
the broken node is removed, the truncated node replaces it with the original
(current) incoming edges re-pointed onto it plus a boring edge to the
smallest member, and the truncated node is recorded in the bookkeeping group
at the smallest member's start address. -/
theorem breakNode_spec {e : Int} {k : Nat} {smallest n : CFGNode}
    {st : NormState} (all_nodes tl : List CFGNode)
    (H : BreakHyps e k smallest n st)
    (hfl : all_nodes.filter (fun i => decide (i.addr = smallest.addr)) =
      smallest :: tl) :
    (breakNode k smallest all_nodes st n).g.nodes =
      st.g.nodes.filter (fun m => decide ¬(m = n)) ++
        [truncatedNode n (smallest.addr - n.addr) k] ∧
    (breakNode k smallest all_nodes st n).g.edges =
      st.g.edges.filter (fun x => decide ¬(x.1 = n ∨ x.2.1 = n)) ++
        (st.g.inEdges n).map
          (fun x => (x.1, truncatedNode n (smallest.addr - n.addr) k, x.2.2)) ++
        [(truncatedNode n (smallest.addr - n.addr) k, smallest,
          { jumpkind := "Ijk_Boring", exit_stmt_idx := none })] ∧
    (breakNode k smallest all_nodes st n).book =
      addGroup (smallest.addr, k)
        (truncatedNode n (smallest.addr - n.addr) k) st.book := by
  have hNN := truncated_not_mem H
  have hsm_ne : smallest ≠ n := by
    intro hc
    have := H.hlt
    rw [hc] at this
    omega
  have hG2memnodes : ∀ m : CFGNode, m ∈ st.g.nodes → m ≠ n →
      m ∈ st.g.nodes.filter (fun q => decide ¬(q = n)) := by
    intro m hm hmn
    rw [List.mem_filter]
    exact ⟨hm, by simpa using hmn⟩
  have hG2edgemem : ∀ x, x ∈ st.g.edges.filter
      (fun x => decide ¬(x.1 = n ∨ x.2.1 = n)) → x ∈ st.g.edges := by
    intro x hx
    exact (List.mem_filter.1 hx).1
  have hNN2 : truncatedNode n (smallest.addr - n.addr) k ∉
      st.g.nodes.filter (fun q => decide ¬(q = n)) := by
    intro hc
    exact hNN (List.mem_filter.1 hc).1
  have hdstNN : ∀ x, x ∈ st.g.edges →
      x.2.1 ≠ truncatedNode n (smallest.addr - n.addr) k := by
    intro x hx hc
    exact hNN (hc ▸ (H.hG.2.1 x hx).2)
  have hsrcNN : ∀ x, x ∈ st.g.edges →
      x.1 ≠ truncatedNode n (smallest.addr - n.addr) k := by
    intro x hx hc
    exact hNN (hc ▸ (H.hG.2.1 x hx).1)
  have hsrcmem : ∀ x, x ∈ st.g.inEdges n →
      x.1 ∈ st.g.nodes.filter (fun q => decide ¬(q = n)) := by
    intro x hx
    have h1 := inEdges_mem st.g n x hx
    apply hG2memnodes x.1 (H.hG.2.1 x h1.1).1
    intro hc
    exact (H.hG.2.2.2.2.2 x h1.1) (hc.trans h1.2.symm)
  have hbn := breakNode_eq all_nodes tl H hfl
  have htpl : ((n.addr + (smallest.addr - n.addr), n.callstack_key) :
      Int × Nat) = (smallest.addr, k) := by
    rw [Prod.mk.injEq]
    exact ⟨by omega, H.hn_key⟩
  have hg1e := removeInEdges_fold_edges st.g n
  have hg1n := removeEdges_fold_nodes (st.g.inEdges n) st.g
  rcases hp : st.g.inEdges n with _ | ⟨e0, P'⟩
  · -- no incoming edges: the fold is the identity
    rw [hbn, hp]
    simp only [List.foldl_nil, List.map_nil]
    have hG2n : ((st.g.removeNode n)).nodes =
        st.g.nodes.filter (fun q => decide ¬(q = n)) := removeNode_nodes st.g n
    have hG2e : ((st.g.removeNode n)).edges =
        st.g.edges.filter (fun x => decide ¬(x.1 = n ∨ x.2.1 = n)) :=
      removeNode_edges st.g n
    refine ⟨?_, ?_, by rw [htpl]⟩
    · rw [addEdge_nodes_of_not_mem_left _ _ _ _
        (by rw [hG2n]; exact hNN2)
        (by rw [hG2n]; exact hG2memnodes smallest H.hsm_mem hsm_ne), hG2n]
    · rw [addEdge_edges, hG2e]
      rw [List.filter_eq_self.mpr ?hself]
      · simp
      case hself =>
        intro x hx
        simp only [decide_eq_true_eq]
        rintro ⟨h1, -⟩
        exact hsrcNN x (hG2edgemem x hx) h1
  · -- at least one incoming edge
    rw [hp] at hg1e hg1n
    have he0mem : e0 ∈ st.g.inEdges n := by
      rw [hp]
      exact List.mem_cons_self e0 P'
    have hPmem : ∀ x ∈ P', x ∈ st.g.inEdges n := by
      intro x hx
      rw [hp]
      exact List.mem_cons_of_mem e0 hx
    have hsrc_nodup := preds_src_nodup st.g n H.hG
    rw [hp] at hsrc_nodup
    have hsrc_nodup2 : e0.1 ∉ P'.map (fun x => x.1) ∧
        (P'.map (fun x => x.1)).Nodup := by
      rw [List.map_cons] at hsrc_nodup
      exact List.nodup_cons.1 hsrc_nodup
    have hG2n : ((List.foldl (fun h x => h.removeEdge x.1 x.2.1) st.g
        (e0 :: P')).removeNode n).nodes =
        st.g.nodes.filter (fun q => decide ¬(q = n)) := by
      rw [removeNode_nodes, hg1n]
    have hG2e : ((List.foldl (fun h x => h.removeEdge x.1 x.2.1) st.g
        (e0 :: P')).removeNode n).edges =
        st.g.edges.filter (fun x => decide ¬(x.1 = n ∨ x.2.1 = n)) := by
      rw [removeNode_edges, hg1e, List.filter_filter]
      apply List.filter_congr
      intro x _
      by_cases h1 : x.2.1 = n <;> by_cases h2 : x.1 = n <;> simp [h1, h2]
    have h1nodes :
        (((List.foldl (fun h x => h.removeEdge x.1 x.2.1) st.g
          (e0 :: P')).removeNode n).addEdge e0.1
          (truncatedNode n (smallest.addr - n.addr) k) e0.2.2).nodes =
        st.g.nodes.filter (fun q => decide ¬(q = n)) ++
          [truncatedNode n (smallest.addr - n.addr) k] := by
      rw [addEdge_nodes_of_mem_left _ _ _ _
        (by rw [hG2n]; exact hsrcmem e0 he0mem)
        (by rw [hG2n]; exact hNN2), hG2n]
    have h1edges :
        (((List.foldl (fun h x => h.removeEdge x.1 x.2.1) st.g
          (e0 :: P')).removeNode n).addEdge e0.1
          (truncatedNode n (smallest.addr - n.addr) k) e0.2.2).edges =
        st.g.edges.filter (fun x => decide ¬(x.1 = n ∨ x.2.1 = n)) ++
          [(e0.1, truncatedNode n (smallest.addr - n.addr) k, e0.2.2)] := by
      rw [addEdge_edges, hG2e]
      rw [List.filter_eq_self.mpr ?hself2]
      case hself2 =>
        intro x hx
        simp only [decide_eq_true_eq]
        rintro ⟨-, h2⟩
        exact hdstNN x (hG2edgemem x hx) h2
    have hfold := addEdges_to_fold (truncatedNode n (smallest.addr - n.addr) k)
      P' _
      (by intro x hx
          rw [h1nodes]
          exact List.mem_append_left _ (hsrcmem x (hPmem x hx)))
      hsrc_nodup2.2
      (by intro x hx hdst
          rw [h1edges] at hx
          rcases List.mem_append.1 hx with h2 | h2
          · exact absurd hdst (hdstNN x (hG2edgemem x h2))
          · rw [List.mem_singleton.1 h2]
            exact hsrc_nodup2.1)
      (by rw [h1nodes]
          exact List.mem_append_right _ (List.mem_singleton.2 rfl))
    rw [hbn, hp, List.foldl_cons]
    refine ⟨?_, ?_, by rw [htpl]⟩
    · rw [addEdge_nodes_of_mem _ _ _ _
        (by rw [hfold.1, h1nodes]
            exact List.mem_append_right _ (List.mem_singleton.2 rfl))
        (by rw [hfold.1, h1nodes]
            exact List.mem_append_left _
              (hG2memnodes smallest H.hsm_mem hsm_ne))]
      rw [hfold.1, h1nodes]
    · rw [addEdge_edges, hfold.2, h1edges]
      rw [List.filter_eq_self.mpr ?hself3]
      · simp
      case hself3 =>
        intro x hx
        simp only [decide_eq_true_eq]
        rintro ⟨h1, -⟩
        rcases List.mem_append.1 hx with h2 | h2
        · rcases List.mem_append.1 h2 with h3 | h3
          · exact hsrcNN x (hG2edgemem x h3) h1
          · rw [List.mem_singleton.1 h3] at h1
            have he0 := inEdges_mem st.g n e0 he0mem
            exact hsrcNN e0 he0.1 h1
        · rcases List.mem_map.1 h2 with ⟨y, hy, hyy⟩
          have hymem := inEdges_mem st.g n y (hPmem y hy)
          rw [← hyy] at h1
          exact hsrcNN y hymem.1 h1


/-! ### The round invariant -/

/-- The invariant carried through the `for n in other_nodes` loop of one
normalization round on group `(e, k)`: the graph is well-formed, the
bookkeeping matches the graph grouping everywhere but at `(e, k)` (whose
already-broken members are only dropped from the bookkeeping when the round
ends), the graph members of `(e, k)` are exactly the smallest node plus the
still-unprocessed members, and every unprocessed member is strictly larger
than the smallest. -/
structure RoundInv (e : Int) (k : Nat) (smallest : CFGNode)
    (todo : List CFGNode) (st : NormState) : Prop where
  wf : GraphWF st.g
  keys_nodup : (st.book.map Prod.fst).Nodup
  groups_nodup : ∀ en ∈ st.book, en.2.Nodup
  match_except : ∀ κ' : Int × Nat, κ' ≠ (e, k) →
    (groupOf st.book κ').toFinset = (graphGroup st.g κ').toFinset
  group_graph : (graphGroup st.g (e, k)).toFinset =
    insert smallest todo.toFinset
  todo_large : ∀ x ∈ todo, smallest.size < x.size
  todo_nodup : todo.Nodup
  sm_mem : smallest ∈ st.g.nodes
  sm_key : smallest.callstack_key = k
  sm_end : smallest.addr + smallest.size = e
  sm_sp : smallest.is_simprocedure = false
  sm_pos : 0 < smallest.size
  sm_notin : smallest ∉ todo

theorem roundInv_breakHyps {e : Int} {k : Nat} {smallest n : CFGNode}
    {todo : List CFGNode} {st : NormState}
    (I : RoundInv e k smallest (n :: todo) st) :
    BreakHyps e k smallest n st := by
  have hn : n ∈ graphGroup st.g (e, k) := by
    rw [← List.mem_toFinset, I.group_graph]
    exact Finset.mem_insert_of_mem (by simp)
  rw [mem_graphGroup_iff] at hn
  exact
    { hG := I.wf
      hmatch := I.match_except
      hn_mem := hn.1
      hn_key := hn.2.2.2
      hn_end := hn.2.2.1
      hn_sp := hn.2.1
      hsm_mem := I.sm_mem
      hsm_key := I.sm_key
      hsm_end := I.sm_end
      hsm_sp := I.sm_sp
      hsm_pos := I.sm_pos
      hlt := I.todo_large n (List.mem_cons_self n todo) }

theorem roundInv_step {e : Int} {k : Nat} {smallest n : CFGNode}
    {todo : List CFGNode} {st : NormState} (all_nodes tl : List CFGNode)
    (I : RoundInv e k smallest (n :: todo) st)
    (hfl : all_nodes.filter (fun i => decide (i.addr = smallest.addr)) =
      smallest :: tl) :
    RoundInv e k smallest todo (breakNode k smallest all_nodes st n) ∧
    groupOf (breakNode k smallest all_nodes st n).book (e, k) =
      groupOf st.book (e, k) ∧
    bookMeasure (breakNode k smallest all_nodes st n).book =
      bookMeasure st.book + (n.size - smallest.size).toNat := by
  have H := roundInv_breakHyps I
  obtain ⟨hnodes, hedges, hbook⟩ := breakNode_spec all_nodes tl H hfl
  have hNN := truncated_not_mem H
  have hlt := I.todo_large n (List.mem_cons_self n todo)
  have hsm_ne : smallest ≠ n := by
    intro hc
    rw [hc] at hlt
    omega
  have hNNsize : (truncatedNode n (smallest.addr - n.addr) k).size =
      n.size - smallest.size := by
    show smallest.addr - n.addr = n.size - smallest.size
    have h1 := H.hn_end
    have h2 := H.hsm_end
    omega
  have hNNkey : nodeKey (truncatedNode n (smallest.addr - n.addr) k) =
      (smallest.addr, k) := by
    rw [Prod.mk.injEq]
    constructor
    · show n.addr + (smallest.addr - n.addr) = smallest.addr
      omega
    · rfl
  have htplne : ((smallest.addr, k) : Int × Nat) ≠ (e, k) := by
    rw [Ne, Prod.mk.injEq]
    rintro ⟨h1, -⟩
    have := H.hsm_end
    have := H.hsm_pos
    omega
  have hNNbook : truncatedNode n (smallest.addr - n.addr) k ∉
      groupOf st.book (smallest.addr, k) := by
    intro hc
    apply hNN
    have := I.match_except (smallest.addr, k) htplne
    rw [← List.mem_toFinset, this, List.mem_toFinset, mem_graphGroup_iff]
      at hc
    exact hc.1
  have hnkey : nodeKey n = ((e, k) : Int × Nat) := by
    rw [Prod.mk.injEq]
    exact ⟨H.hn_end, H.hn_key⟩
  have hmemnodes : ∀ x : CFGNode,
      x ∈ (breakNode k smallest all_nodes st n).g.nodes ↔
        ((x ∈ st.g.nodes ∧ x ≠ n) ∨
          x = truncatedNode n (smallest.addr - n.addr) k) := by
    intro x
    rw [hnodes, List.mem_append, List.mem_filter, List.mem_singleton]
    simp only [decide_eq_true_eq]
  have hmemgroup : ∀ κ' : Int × Nat, ∀ x : CFGNode,
      x ∈ graphGroup (breakNode k smallest all_nodes st n).g κ' ↔
        (((x ∈ st.g.nodes ∧ x ≠ n) ∨
          x = truncatedNode n (smallest.addr - n.addr) k) ∧
          x.is_simprocedure = false ∧ x.addr + x.size = κ'.1 ∧
          x.callstack_key = κ'.2) := by
    intro κ' x
    rw [mem_graphGroup_iff, hmemnodes]
  have hgroupold : ∀ κ' : Int × Nat, ∀ x : CFGNode,
      x ∈ graphGroup st.g κ' ↔
        (x ∈ st.g.nodes ∧ x.is_simprocedure = false ∧
          x.addr + x.size = κ'.1 ∧ x.callstack_key = κ'.2) :=
    fun κ' x => mem_graphGroup_iff st.g κ' x
  refine ⟨?_, ?_, ?_⟩
  · refine
      { wf := ?_
        keys_nodup := ?_
        groups_nodup := ?_
        match_except := ?_
        group_graph := ?_
        todo_large := fun x hx => I.todo_large x (List.mem_cons_of_mem n hx)
        todo_nodup := (List.nodup_cons.1 I.todo_nodup).2
        sm_mem := ?_
        sm_key := I.sm_key
        sm_end := I.sm_end
        sm_sp := I.sm_sp
        sm_pos := I.sm_pos
        sm_notin := fun hc => I.sm_notin (List.mem_cons_of_mem n hc) }
    · -- GraphWF of the new graph
      obtain ⟨wnodup, wends, wpairs, winj, wpos, wself⟩ := I.wf
      refine ⟨?_, ?_, ?_, ?_, ?_, ?_⟩
      · -- node list duplicate-free
        rw [hnodes]
        refine List.Nodup.append (wnodup.filter _) (List.nodup_singleton _) ?_
        intro x hx hx2
        rw [List.mem_singleton.1 hx2] at hx
        exact hNN (List.mem_filter.1 hx).1
      · -- edge endpoints present
        intro x hx
        rw [hedges] at hx
        rcases List.mem_append.1 hx with h1 | h1
        · rcases List.mem_append.1 h1 with h2 | h2
          · have h3 := List.mem_filter.1 h2
            have h4 : ¬(x.1 = n ∨ x.2.1 = n) := by simpa using h3.2
            push_neg at h4
            constructor
            · rw [hmemnodes]
              exact Or.inl ⟨(wends x h3.1).1, h4.1⟩
            · rw [hmemnodes]
              exact Or.inl ⟨(wends x h3.1).2, h4.2⟩
          · rcases List.mem_map.1 h2 with ⟨y, hy, hyy⟩
            have hym := inEdges_mem st.g n y hy
            constructor
            · rw [← hyy]
              show y.1 ∈ _
              rw [hmemnodes]
              refine Or.inl ⟨(wends y hym.1).1, ?_⟩
              intro hc
              exact (wself y hym.1) (hc.trans hym.2.symm)
            · rw [← hyy]
              show truncatedNode n (smallest.addr - n.addr) k ∈ _
              rw [hmemnodes]
              exact Or.inr rfl
        · rw [List.mem_singleton.1 h1]
          constructor
          · show truncatedNode n (smallest.addr - n.addr) k ∈ _
            rw [hmemnodes]
            exact Or.inr rfl
          · show smallest ∈ _
            rw [hmemnodes]
            exact Or.inl ⟨I.sm_mem, hsm_ne⟩
      · -- at most one edge per ordered pair
        rw [hedges]
        rw [List.map_append, List.map_append]
        have hp1 : ((st.g.edges.filter
            (fun x => decide ¬(x.1 = n ∨ x.2.1 = n))).map
            (fun x => (x.1, x.2.1))).Nodup :=
          ((List.filter_sublist st.g.edges).map _).nodup wpairs
        have hp2 : (((st.g.inEdges n).map (fun x =>
            (x.1, truncatedNode n (smallest.addr - n.addr) k, x.2.2))).map
            (fun x => (x.1, x.2.1))).Nodup := by
          rw [List.map_map]
          have hsn := preds_src_nodup st.g n I.wf
          have heq : ((fun x => (x.1, x.2.1)) ∘ (fun x : CFGNode × CFGNode ×
              EdgeData => (x.1, truncatedNode n (smallest.addr - n.addr) k,
              x.2.2))) = fun x : CFGNode × CFGNode × EdgeData =>
              (x.1, truncatedNode n (smallest.addr - n.addr) k) := rfl
          rw [heq]
          have heq2 : (fun x : CFGNode × CFGNode × EdgeData =>
              (x.1, truncatedNode n (smallest.addr - n.addr) k)) =
              ((fun p : CFGNode =>
                (p, truncatedNode n (smallest.addr - n.addr) k)) ∘
               (fun x : CFGNode × CFGNode × EdgeData => x.1)) := rfl
          rw [heq2, ← List.map_map]
          apply List.Nodup.map
          · intro a b hab
            exact congrArg Prod.fst hab
          · exact hsn
        refine List.Nodup.append (List.Nodup.append hp1 hp2 ?_)
          (List.nodup_singleton _) ?_
        · intro p hpa hpb
          rw [List.map_map] at hpb
          rcases List.mem_map.1 hpa with ⟨x, hx, hxx⟩
          rcases List.mem_map.1 hpb with ⟨y, hy, hyy⟩
          have hx2 : x.2.1 ∈ st.g.nodes :=
            (wends x (List.mem_filter.1 hx).1).2
          have h5 : x.2.1 = truncatedNode n (smallest.addr - n.addr) k := by
            have h6 := congrArg Prod.snd hxx
            have h7 := congrArg Prod.snd hyy
            exact h6.trans h7.symm
          rw [h5] at hx2
          exact hNN hx2
        · intro p hpa hpb
          rw [List.mem_singleton.1 hpb] at hpa
          rcases List.mem_append.1 hpa with h2 | h2
          · rcases List.mem_map.1 h2 with ⟨x, hx, hxx⟩
            have hx1 : x.1 ∈ st.g.nodes :=
              (wends x (List.mem_filter.1 hx).1).1
            have h5 : x.1 = truncatedNode n (smallest.addr - n.addr) k :=
              congrArg Prod.fst hxx
            rw [h5] at hx1
            exact hNN hx1
          · rw [List.map_map] at h2
            rcases List.mem_map.1 h2 with ⟨y, hy, hyy⟩
            have h5 : truncatedNode n (smallest.addr - n.addr) k =
                smallest := congrArg Prod.snd hyy
            apply hNN
            rw [h5]
            exact I.sm_mem
      · -- key injectivity
        intro x hx y hy haddr hkey
        rw [hmemnodes] at hx hy
        obtain ⟨wnodup2, wends2, wpairs2, winj2, wpos2, wself2⟩ := I.wf
        rcases hx with ⟨hx1, hx2⟩ | hx3
        · rcases hy with ⟨hy1, hy2⟩ | hy3
          · exact winj2 x hx1 y hy1 haddr hkey
          · exfalso
            apply hx2
            apply winj2 x hx1 n H.hn_mem
            · rw [haddr, hy3]; rfl
            · rw [hkey, hy3, H.hn_key]; rfl
        · rcases hy with ⟨hy1, hy2⟩ | hy3
          · exfalso
            apply hy2
            apply winj2 y hy1 n H.hn_mem
            · rw [← haddr, hx3]; rfl
            · rw [← hkey, hx3, H.hn_key]; rfl
          · rw [hx3, hy3]
      · -- positive sizes
        intro x hx hsp
        rw [hmemnodes] at hx
        rcases hx with ⟨hx1, -⟩ | hx3
        · exact I.wf.2.2.2.2.1 x hx1 hsp
        · rw [hx3, hNNsize]
          omega
      · -- no self-loops
        intro x hx
        rw [hedges] at hx
        rcases List.mem_append.1 hx with h1 | h1
        · rcases List.mem_append.1 h1 with h2 | h2
          · exact I.wf.2.2.2.2.2 x (List.mem_filter.1 h2).1
          · rcases List.mem_map.1 h2 with ⟨y, hy, hyy⟩
            have hym := inEdges_mem st.g n y hy
            rw [← hyy]
            show y.1 ≠ truncatedNode n (smallest.addr - n.addr) k
            intro hc
            exact hNN (hc ▸ (I.wf.2.1 y hym.1).1)
        · rw [List.mem_singleton.1 h1]
          show truncatedNode n (smallest.addr - n.addr) k ≠ smallest
          intro hc
          apply hNN
          rw [hc]
          exact I.sm_mem
    · -- book keys duplicate-free
      rw [hbook]
      exact addGroup_keys_nodup st.book _ _ I.keys_nodup
    · -- book groups duplicate-free
      rw [hbook]
      exact addGroup_groups_nodup st.book _ _ I.groups_nodup
    · -- bookkeeping matches graph groups away from (e, k)
      intro κ' hκ'
      by_cases htp : κ' = (smallest.addr, k)
      · subst htp
        rw [hbook, groupOf_addGroup_self]
        rw [if_neg hNNbook]
        apply Finset.ext
        intro x
        rw [List.mem_toFinset, List.mem_toFinset, List.mem_append,
          List.mem_singleton, hmemgroup]
        constructor
        · rintro (h1 | h1)
          · have := I.match_except (smallest.addr, k) htplne
            rw [← List.mem_toFinset, this, List.mem_toFinset,
              hgroupold] at h1
            refine ⟨Or.inl ⟨h1.1, ?_⟩, h1.2⟩
            intro hc
            rw [hc] at h1
            have h2 := h1.2.2.1
            rw [H.hn_end] at h2
            have := H.hsm_end
            have := H.hsm_pos
            omega
          · subst h1
            refine ⟨Or.inr rfl, rfl, ?_, rfl⟩
            exact congrArg Prod.fst hNNkey
        · rintro ⟨h1 | h1, h2⟩
          · left
            have := I.match_except (smallest.addr, k) htplne
            rw [← List.mem_toFinset, this, List.mem_toFinset, hgroupold]
            exact ⟨h1.1, h2⟩
          · right
            exact h1
      · rw [hbook, groupOf_addGroup_ne st.book _ κ' _ htp]
        rw [I.match_except κ' hκ']
        apply Finset.ext
        intro x
        rw [List.mem_toFinset, List.mem_toFinset, hgroupold, hmemgroup]
        constructor
        · rintro ⟨h1, h2⟩
          refine ⟨Or.inl ⟨h1, ?_⟩, h2⟩
          intro hc
          apply hκ'
          rw [hc] at h2
          exact Prod.ext (h2.2.1.symm.trans H.hn_end)
            (h2.2.2.symm.trans H.hn_key)
        · rintro ⟨h1 | h1, h2⟩
          · exact ⟨h1.1, h2⟩
          · exfalso
            apply htp
            rw [h1] at h2
            exact Prod.ext
              (h2.2.1.symm.trans (congrArg Prod.fst hNNkey))
              (h2.2.2.symm.trans (congrArg Prod.snd hNNkey))
    · -- the graph members of (e, k) shrink by the broken node
      apply Finset.ext
      intro x
      rw [List.mem_toFinset, hmemgroup]
      constructor
      · rintro ⟨h1 | h1, h2⟩
        · have hxg : x ∈ graphGroup st.g (e, k) := by
            rw [hgroupold]
            exact ⟨h1.1, h2⟩
          rw [← List.mem_toFinset, I.group_graph] at hxg
          rcases Finset.mem_insert.1 hxg with h3 | h3
          · exact Finset.mem_insert.2 (Or.inl h3)
          · rw [List.mem_toFinset] at h3
            rcases List.mem_cons.1 h3 with h4 | h4
            · exact absurd h4 h1.2
            · exact Finset.mem_insert.2 (Or.inr (List.mem_toFinset.2 h4))
        · exfalso
          rw [h1] at h2
          have h3 : ((smallest.addr, k) : Int × Nat) = (e, k) :=
            Prod.ext ((congrArg Prod.fst hNNkey).symm.trans h2.2.1) rfl
          exact htplne h3
      · intro hx
        rcases Finset.mem_insert.1 hx with h3 | h3
        · subst h3
          refine ⟨Or.inl ⟨I.sm_mem, hsm_ne⟩, I.sm_sp, I.sm_end, I.sm_key⟩
        · rw [List.mem_toFinset] at h3
          have hxg : x ∈ graphGroup st.g (e, k) := by
            rw [← List.mem_toFinset, I.group_graph]
            exact Finset.mem_insert.2 (Or.inr (List.mem_toFinset.2
              (List.mem_cons_of_mem n h3)))
          rw [hgroupold] at hxg
          refine ⟨Or.inl ⟨hxg.1, ?_⟩, hxg.2⟩
          intro hc
          rw [hc] at h3
          exact (List.nodup_cons.1 I.todo_nodup).1 h3
    · -- the smallest node survives
      rw [hmemnodes]
      exact Or.inl ⟨I.sm_mem, hsm_ne⟩
  · -- the (e, k) group of the bookkeeping is untouched
    rw [hbook]
    exact groupOf_addGroup_ne st.book _ _ _ (fun hc => htplne hc.symm)
  · -- the measure grows by exactly the truncated node's size
    rw [hbook, bookMeasure_addGroup st.book _ _ hNNbook, hNNsize]

theorem roundInv_fold {e : Int} {k : Nat} {smallest : CFGNode}
    (all_nodes tl : List CFGNode)
    (hfl : all_nodes.filter (fun i => decide (i.addr = smallest.addr)) =
      smallest :: tl) :
    ∀ (todo : List CFGNode) (st : NormState),
    RoundInv e k smallest todo st →
    RoundInv e k smallest []
      (todo.foldl (breakNode k smallest all_nodes) st) ∧
    groupOf (todo.foldl (breakNode k smallest all_nodes) st).book (e, k) =
      groupOf st.book (e, k) ∧
    bookMeasure (todo.foldl (breakNode k smallest all_nodes) st).book =
      bookMeasure st.book +
        (todo.map (fun x => (x.size - smallest.size).toNat)).sum := by
  intro todo
  induction todo with
  | nil =>
    intro st I
    exact ⟨I, rfl, by simp⟩
  | cons n rest ih =>
    intro st I
    obtain ⟨I1, hgrp1, hms1⟩ := roundInv_step all_nodes tl I hfl
    obtain ⟨I2, hgrp2, hms2⟩ := ih (breakNode k smallest all_nodes st n) I1
    refine ⟨I2, hgrp2.trans hgrp1, ?_⟩
    rw [List.foldl_cons] at *
    rw [hms2, hms1, List.map_cons, List.sum_cons]
    omega

/-- Well-formedness of a full `normalize()` state between rounds: a
well-formed graph whose bookkeeping exactly matches its grouping. -/
def StWF (st : NormState) : Prop :=
  GraphWF st.g ∧
  (st.book.map Prod.fst).Nodup ∧
  (∀ en ∈ st.book, en.2.Nodup) ∧
  (∀ κ : Int × Nat,
    (groupOf st.book κ).toFinset = (graphGroup st.g κ).toFinset)

theorem groupOf_ne_nil_mem_keys (b : Book) (κ : Int × Nat)
    (h : groupOf b κ ≠ []) : κ ∈ b.map Prod.fst := by
  unfold groupOf at h
  rcases hf : b.find? (fun x => decide (x.1 = κ)) with _ | x
  · rw [hf] at h
    exact absurd rfl h
  · have h1 := List.find?_some hf
    have h2 := List.mem_of_find?_eq_some hf
    simp only [decide_eq_true_eq] at h1
    rw [← h1]
    exact List.mem_map_of_mem Prod.fst h2

theorem sum_lt_sum_pointwise (f g : CFGNode → Nat) (l : List CFGNode)
    (h : ∀ x ∈ l, f x < g x) :
    (l.map f).sum + l.length ≤ (l.map g).sum := by
  induction l with
  | nil => simp
  | cons x rest ih =>
    have h1 := h x (List.mem_cons_self x rest)
    have h2 := ih (fun y hy => h y (List.mem_cons_of_mem x hy))
    simp only [List.map_cons, List.sum_cons, List.length_cons]
    omega

theorem processGroup_spec (st : NormState) (κ : Int × Nat)
    (hwf : StWF st) (hconf : findConflict st.book = some κ) :
    StWF (processGroup κ st) ∧
    bookMeasure (processGroup κ st).book < bookMeasure st.book ∧
    (∀ sm : CFGNode, ∀ oth : List CFGNode,
      sortBySize (groupOf st.book κ) = sm :: oth →
      sm ∈ (processGroup κ st).g.nodes ∧
      groupOf (processGroup κ st).book κ = [sm]) := by
  obtain ⟨hG, hkeys, hgroups, hmatchAll⟩ := hwf
  have hlen := findConflict_spec st.book κ hkeys hconf
  have hperm : List.Perm (sortBySize (groupOf st.book κ))
      (groupOf st.book κ) :=
    List.perm_insertionSort sizeLE (groupOf st.book κ)
  have hsorted : List.Sorted sizeLE (sortBySize (groupOf st.book κ)) :=
    List.sorted_insertionSort sizeLE (groupOf st.book κ)
  have hnodup0 : (groupOf st.book κ).Nodup := groupOf_nodup st.book κ hgroups
  have hnodup : (sortBySize (groupOf st.book κ)).Nodup :=
    (hperm.nodup_iff).2 hnodup0
  have hmemprops : ∀ x ∈ groupOf st.book κ,
      x ∈ st.g.nodes ∧ x.is_simprocedure = false ∧ x.addr + x.size = κ.1 ∧
        x.callstack_key = κ.2 := by
    intro x hx
    have := hmatchAll κ
    rw [← List.mem_toFinset, this, List.mem_toFinset, mem_graphGroup_iff]
      at hx
    exact hx
  have hdistinct : ∀ x ∈ groupOf st.book κ, ∀ y ∈ groupOf st.book κ,
      x ≠ y → x.size ≠ y.size := by
    intro x hx y hy hxy hsz
    have hx2 := hmemprops x hx
    have hy2 := hmemprops y hy
    apply hxy
    apply hG.2.2.2.1 x hx2.1 y hy2.1
    · have h1 := hx2.2.2.1
      have h2 := hy2.2.2.1
      omega
    · rw [hx2.2.2.2, hy2.2.2.2]
  rcases hs : sortBySize (groupOf st.book κ) with _ | ⟨smallest, others⟩
  · exfalso
    rw [hs] at hperm
    have := hperm.length_eq
    simp at this
    omega
  have hsm_in : smallest ∈ groupOf st.book κ := by
    rw [← hperm.mem_iff, hs]
    exact List.mem_cons_self smallest others
  have hoth_in : ∀ x ∈ others, x ∈ groupOf st.book κ := by
    intro x hx
    rw [← hperm.mem_iff, hs]
    exact List.mem_cons_of_mem smallest hx
  rw [hs] at hsorted hnodup
  have hlarge : ∀ x ∈ others, smallest.size < x.size := by
    intro x hx
    have hle : sizeLE smallest x := List.rel_of_sorted_cons hsorted x hx
    have hne : smallest ≠ x := by
      intro hc
      exact (List.nodup_cons.1 hnodup).1 (hc ▸ hx)
    have := hdistinct smallest hsm_in x (hoth_in x hx) hne
    exact lt_of_le_of_ne hle this
  have hsmprops := hmemprops smallest hsm_in
  obtain ⟨ek1, ek2⟩ : ∃ e : Int, ∃ kk : Nat, κ = (e, kk) := ⟨κ.1, κ.2, rfl⟩
  obtain ⟨kk, hkk⟩ := ek2
  subst hkk
  have hfl : (smallest :: others).filter
      (fun i => decide (i.addr = smallest.addr)) =
      smallest :: others.filter (fun i => decide (i.addr = smallest.addr)) := by
    rw [List.filter_cons]
    simp
  have hI : RoundInv ek1 kk smallest others st := by
    refine
      { wf := hG
        keys_nodup := hkeys
        groups_nodup := hgroups
        match_except := fun κ' _ => hmatchAll κ'
        group_graph := ?_
        todo_large := hlarge
        todo_nodup := (List.nodup_cons.1 hnodup).2
        sm_mem := hsmprops.1
        sm_key := hsmprops.2.2.2
        sm_end := hsmprops.2.2.1
        sm_sp := hsmprops.2.1
        sm_pos := hG.2.2.2.2.1 smallest hsmprops.1 hsmprops.2.1
        sm_notin := (List.nodup_cons.1 hnodup).1 }
    · rw [← hmatchAll (ek1, kk)]
      rw [show (groupOf st.book (ek1, kk)).toFinset =
        (sortBySize (groupOf st.book (ek1, kk))).toFinset from
        (List.toFinset_eq_of_perm _ _ hperm).symm]
      rw [hs]
      simp
  obtain ⟨Ifin, hgrp, hms⟩ :=
    roundInv_fold (smallest :: others)
      (others.filter (fun i => decide (i.addr = smallest.addr))) hfl others st
      hI
  have hresult : processGroup (ek1, kk) st =
      { g := (others.foldl (breakNode kk smallest (smallest :: others)) st).g
        book := setGroup (ek1, kk) [smallest]
          (others.foldl (breakNode kk smallest (smallest :: others)) st).book
      } := by
    unfold processGroup
    rw [hs]
  have hkey_mem : ((ek1, kk) : Int × Nat) ∈
      (others.foldl (breakNode kk smallest (smallest :: others))
        st).book.map Prod.fst := by
    apply groupOf_ne_nil_mem_keys
    rw [hgrp]
    intro hc
    rw [hc] at hsm_in
    cases hsm_in
  refine ⟨?_, ?_, ?_⟩
  · rw [hresult]
    refine ⟨Ifin.wf, ?_, ?_, ?_⟩
    · exact setGroup_keys_nodup _ _ _ Ifin.keys_nodup
    · exact setGroup_groups_nodup _ _ _ Ifin.groups_nodup
        (List.nodup_singleton smallest)
    · intro κ'
      by_cases hk : κ' = ((ek1, kk) : Int × Nat)
      · subst hk
        rw [groupOf_setGroup_self]
        show [smallest].toFinset = (graphGroup
          (others.foldl (breakNode kk smallest (smallest :: others)) st).g
          (ek1, kk)).toFinset
        rw [Ifin.group_graph]
        simp
      · rw [groupOf_setGroup_ne _ _ _ _ hk]
        exact Ifin.match_except κ' hk
  · rw [hresult]
    show bookMeasure (setGroup (ek1, kk) [smallest] _) < bookMeasure st.book
    have hset := bookMeasure_setGroup
      (others.foldl (breakNode kk smallest (smallest :: others)) st).book
      (ek1, kk) [smallest] hkey_mem
    rw [hgrp] at hset
    have hmass : massList (groupOf st.book (ek1, kk)) =
        massList (smallest :: others) := by
      unfold massList
      exact (((hperm.map (fun x => x.size.toNat))).sum_eq).symm ▸
        (by rw [hs])
    have hlt : (others.map (fun x => (x.size - smallest.size).toNat)).sum <
        massList others := by
      have hne : others ≠ [] := by
        intro hc
        rw [hs, hc] at hperm
        have := hperm.length_eq
        simp at this
        omega
      have hpt : ∀ x ∈ others,
          (x.size - smallest.size).toNat < x.size.toNat := by
        intro x hx
        have h1 := hlarge x hx
        have h2 := hG.2.2.2.2.1 smallest hsmprops.1 hsmprops.2.1
        omega
      have := sum_lt_sum_pointwise (fun x => (x.size - smallest.size).toNat)
        (fun x => x.size.toNat) others hpt
      have hlen2 : 0 < others.length := by
        cases others with
        | nil => exact absurd rfl hne
        | cons a b => simp
      unfold massList
      omega
    have hmass2 : massList (smallest :: others) =
        smallest.size.toNat + massList others := by
      unfold massList
      simp
    have hmass3 : massList [smallest] = smallest.size.toNat := by
      unfold massList
      simp
    omega
  · intro sm oth hs2
    injection hs2 with h1 h2
    subst h1
    constructor
    · rw [hresult]
      exact Ifin.sm_mem
    · rw [hresult]
      exact groupOf_setGroup_self _ _ _

/-! ### The while loop and the initial bookkeeping -/

theorem normalizeLoop_spec : ∀ (fuel : Nat) (st : NormState), StWF st →
    bookMeasure st.book < fuel →
    StWF (normalizeLoop fuel st) ∧
    findConflict (normalizeLoop fuel st).book = none := by
  intro fuel
  induction fuel with
  | zero => intro st _ h; omega
  | succ fuel ih =>
    intro st hwf hm
    have hred : normalizeLoop (fuel + 1) st =
        match findConflict st.book with
        | none => st
        | some κ2 => normalizeLoop fuel (processGroup κ2 st) := rfl
    rcases hconf : findConflict st.book with _ | κ
    · rw [hred, hconf]
      exact ⟨hwf, hconf⟩
    · have hstep := processGroup_spec st κ hwf hconf
      rw [hred, hconf]
      exact ih (processGroup κ st) hstep.1 (by omega)

theorem groupOf_addGroup_toFinset (b : Book) (κ0 : Int × Nat) (n : CFGNode)
    (κ : Int × Nat) :
    (groupOf (addGroup κ0 n b) κ).toFinset =
      if κ = κ0 then insert n (groupOf b κ).toFinset
      else (groupOf b κ).toFinset := by
  by_cases h : κ = κ0
  · subst h
    rw [if_pos rfl, groupOf_addGroup_self]
    by_cases hn : n ∈ groupOf b κ
    · rw [if_pos hn]
      exact (Finset.insert_eq_self.2 (List.mem_toFinset.2 hn)).symm
    · rw [if_neg hn, List.toFinset_append]
      rw [Finset.union_comm]
      simp [Finset.insert_eq]
  · rw [if_neg h, groupOf_addGroup_ne b κ0 κ n h]

theorem initFold_keys_nodup (ns : List CFGNode) : ∀ b : Book,
    (b.map Prod.fst).Nodup →
    ((ns.foldl (fun book n => if n.is_simprocedure then book
      else addGroup (nodeKey n) n book) b).map Prod.fst).Nodup := by
  induction ns with
  | nil => intro b h; exact h
  | cons n rest ih =>
    intro b h
    rw [List.foldl_cons]
    by_cases hsp : n.is_simprocedure
    · rw [if_pos hsp]
      exact ih b h
    · rw [if_neg hsp]
      exact ih (addGroup (nodeKey n) n b) (addGroup_keys_nodup b _ n h)

theorem initFold_groups_nodup (ns : List CFGNode) : ∀ b : Book,
    (∀ en ∈ b, en.2.Nodup) →
    ∀ en ∈ ns.foldl (fun book n => if n.is_simprocedure then book
      else addGroup (nodeKey n) n book) b, en.2.Nodup := by
  induction ns with
  | nil => intro b h; exact h
  | cons n rest ih =>
    intro b h
    rw [List.foldl_cons]
    by_cases hsp : n.is_simprocedure
    · rw [if_pos hsp]
      exact ih b h
    · rw [if_neg hsp]
      exact ih (addGroup (nodeKey n) n b) (addGroup_groups_nodup b _ n h)

theorem initFold_groupOf (ns : List CFGNode) : ∀ (b : Book) (κ : Int × Nat),
    (groupOf (ns.foldl (fun book n => if n.is_simprocedure then book
      else addGroup (nodeKey n) n book) b) κ).toFinset =
    (groupOf b κ).toFinset ∪
      (ns.filter (fun x => decide (x.is_simprocedure = false ∧
        nodeKey x = κ))).toFinset := by
  induction ns with
  | nil => intro b κ; simp
  | cons n rest ih =>
    intro b κ
    rw [List.foldl_cons, List.filter_cons]
    by_cases hsp : n.is_simprocedure = true
    · rw [if_pos hsp]
      rw [if_neg (show ¬(decide (n.is_simprocedure = false ∧
        nodeKey n = κ) = true) from by simp [hsp])]
      exact ih b κ
    · rw [if_neg hsp]
      have hspf : n.is_simprocedure = false := by
        cases hv : n.is_simprocedure
        · rfl
        · exact absurd hv hsp
      rw [ih (addGroup (nodeKey n) n b) κ, groupOf_addGroup_toFinset]
      by_cases hk : κ = nodeKey n
      · rw [if_pos hk]
        rw [if_pos (show (decide (n.is_simprocedure = false ∧
          nodeKey n = κ) = true) from by simp [hspf, hk])]
        rw [List.toFinset_cons, Finset.insert_union, Finset.union_insert]
      · rw [if_neg hk]
        rw [if_neg (show ¬(decide (n.is_simprocedure = false ∧
          nodeKey n = κ) = true) from by
            simp only [decide_eq_true_eq, not_and]
            intro _ hc
            exact hk hc.symm)]

theorem init_StWF (g : Graph) (hG : GraphWF g) :
    StWF { g := g, book := initBook g.nodes } := by
  refine ⟨hG, ?_, ?_, ?_⟩
  · exact initFold_keys_nodup g.nodes [] List.nodup_nil
  · exact initFold_groups_nodup g.nodes [] (fun en hen => by cases hen)
  · intro κ
    show (groupOf (initBook g.nodes) κ).toFinset = _
    unfold initBook
    rw [initFold_groupOf g.nodes [] κ]
    unfold graphGroup
    simp [groupOf]

theorem length_le_one_of_groupOf (b : Book)
    (h : ∀ en ∈ b, en.2.length ≤ 1) (κ : Int × Nat) :
    (groupOf b κ).length ≤ 1 := by
  rcases hf : b.find? (fun x => decide (x.1 = κ)) with _ | x
  · rw [show groupOf b κ = [] from by simp [groupOf, hf]]
    simp
  · rw [show groupOf b κ = x.2 from by simp [groupOf, hf]]
    exact h x (List.mem_of_find?_eq_some hf)

/-- After `normalize()`, the graph is still well-formed and every
(end address, context key) group of non-SimProcedure nodes has at most one
member. -/
theorem normalize_wf (g : Graph) (hG : GraphWF g) :
    GraphWF (normalize g) ∧
    ∀ κ : Int × Nat, (graphGroup (normalize g) κ).length ≤ 1 := by
  have hloop := normalizeLoop_spec
    (bookMeasure (initBook g.nodes) + 1)
    { g := g, book := initBook g.nodes }
    (init_StWF g hG) (Nat.lt_succ_self _)
  obtain ⟨⟨hwfG, hkeys, hgroups, hmatch⟩, hconf⟩ := hloop
  refine ⟨hwfG, ?_⟩
  intro κ
  have hlen : ∀ en ∈ (normalizeLoop (bookMeasure (initBook g.nodes) + 1)
      { g := g, book := initBook g.nodes }).book, en.2.length ≤ 1 :=
    (findConflict_eq_none_iff _).1 hconf
  have h1 := length_le_one_of_groupOf _ hlen κ
  have h2 := hmatch κ
  have h3 : (graphGroup (normalize g) κ).Nodup := by
    unfold graphGroup
    exact hwfG.1.filter _
  have h4 : (graphGroup (normalize g) κ).toFinset.card =
      (graphGroup (normalize g) κ).length := List.toFinset_card_of_nodup h3
  have h5 := List.toFinset_card_le (groupOf (normalizeLoop
    (bookMeasure (initBook g.nodes) + 1)
    { g := g, book := initBook g.nodes }).book κ)
  rw [h2] at h5
  show (graphGroup (normalize g) κ).length ≤ 1
  rw [← h4]
  calc (graphGroup (normalize g) κ).toFinset.card ≤
      (groupOf (normalizeLoop (bookMeasure (initBook g.nodes) + 1)
        { g := g, book := initBook g.nodes }).book κ).length := h5
    _ ≤ 1 := h1

theorem mem_of_length_le_one {l : List CFGNode} (h : l.length ≤ 1)
    {a b : CFGNode} (ha : a ∈ l) (hb : b ∈ l) : a = b := by
  cases l with
  | nil => cases ha
  | cons x rest =>
    cases rest with
    | nil =>
      rw [List.mem_singleton.1 ha, List.mem_singleton.1 hb]
    | cons y rest2 => simp at h

/-- Lemma: `normalize()` is the identity on a graph whose initial bookkeeping shows
no conflicting group. -/
theorem normalize_of_no_conflict (g : Graph)
    (h : findConflict (initBook g.nodes) = none) : normalize g = g := by
  show (normalizeLoop (bookMeasure (initBook g.nodes) + 1)
    { g := g, book := initBook g.nodes }).g = g
  rw [show normalizeLoop (bookMeasure (initBook g.nodes) + 1)
      { g := g, book := initBook g.nodes } =
      { g := g, book := initBook g.nodes } from by
    unfold normalizeLoop; rw [h]]


/-- Claim C1 as stated: any two distinct non-SimProcedure nodes with the same
context key have disjoint `[addr, addr + size)` ranges. -/
def sameContextDisjoint (g : Graph) : Prop :=
  ∀ n ∈ g.nodes, ∀ m ∈ g.nodes,
    ¬n.is_simprocedure = true → ¬m.is_simprocedure = true →
    n ≠ m → n.callstack_key = m.callstack_key →
    (n.addr + n.size ≤ m.addr ∨ m.addr + m.size ≤ n.addr)

instance (g : Graph) : Decidable (sameContextDisjoint g) := by
  unfold sameContextDisjoint
  infer_instance

/-- The block `[0, 10)` of the overlap counterexample. -/
def overlapA : CFGNode :=
  { addr := 0, size := 10, callstack_key := 0, function_address := 0,
    simrun_key := 1, instruction_addrs := [0, 5], is_simprocedure := false,
    is_syscall := false, looping_times := 0, no_ret := none }

/-- The block `[5, 20)` of the overlap counterexample. -/
def overlapB : CFGNode :=
  { addr := 5, size := 15, callstack_key := 0, function_address := 0,
    simrun_key := 2, instruction_addrs := [5, 12], is_simprocedure := false,
    is_syscall := false, looping_times := 0, no_ret := none }

/-- Two overlapping same-context blocks with distinct end addresses:
`[0, 10)` and `[5, 20)`. -/
def overlapDiffEndGraph : Graph :=
  { nodes := [overlapA, overlapB], edges := [] }

/-- The two members of `sharedEndGraph` and the truncated node `normalize`
creates for the larger one. -/
def sharedEndSmall : CFGNode :=
  { addr := 5, size := 5, callstack_key := 0, function_address := 0,
    simrun_key := 1, instruction_addrs := [5], is_simprocedure := false,
    is_syscall := false, looping_times := 0, no_ret := none }

/-- The larger block `[0, 10)` of `sharedEndGraph`. -/
def sharedEndBig : CFGNode :=
  { addr := 0, size := 10, callstack_key := 0, function_address := 0,
    simrun_key := 2, instruction_addrs := [0, 5], is_simprocedure := false,
    is_syscall := false, looping_times := 0, no_ret := none }

/-- Two same-context blocks sharing end address 10: `[5, 10)` and `[0, 10)`;
normalizing truncates the larger one and inserts a boring edge that carries
no exit statement index. -/
def sharedEndGraph : Graph :=
  { nodes := [sharedEndSmall, sharedEndBig], edges := [] }

/-- The truncated `[0, 5)` node produced by normalizing `sharedEndGraph`. -/
def sharedEndTrunc : CFGNode :=
  { addr := 0, size := 5, callstack_key := 0, function_address := 0,
    simrun_key := 2, instruction_addrs := [0], is_simprocedure := false,
    is_syscall := false, looping_times := 0, no_ret := none }

/-- The shared-end overlap graph with a self-loop edge on its larger member
`[0, 10)`.  On this graph `normalize()` resurrects the member it removes:
`original_predecessors` (source line 704) contains the self-loop
`(n, n, data)`, the node is removed at line 707, and
`graph.add_edge(p, new_node, data)` with `p == n` (lines 715-716) adds the
removed node right back. -/
def selfLoopGraph : Graph :=
  { nodes := [sharedEndSmall, sharedEndBig],
    edges := [(sharedEndBig, sharedEndBig, ⟨"Ijk_Boring", some 0⟩)] }

instance (g : Graph) : Decidable (KeyInjective g) := by
  unfold KeyInjective
  infer_instance

instance (g : Graph) : Decidable (GraphWF g) := by
  unfold GraphWF
  infer_instance

/-- C1 counterexample, both failure modes of the claim computed through the
embedding.  Part one: `normalize()` groups nodes by (end address, context
key) only, so the overlapping same-context blocks `[0, 10)` and `[5, 20)` —
whose end addresses differ — survive normalization untouched and still
overlap; this forces weakening "disjoint ranges" to "distinct end
addresses".  Part two: even that weaker conclusion fails on a graph with a
self-loop on the larger conflicting member — the removed member is re-added
as the source of its re-pointed self-loop edge, so two distinct same-context
non-SimProcedure nodes with equal end addresses (which moreover overlap)
survive `normalize()`; this forces the amended theorem's no-self-loop
hypothesis. -/
theorem C1_normalize_counterexample :
    (normalize overlapDiffEndGraph = overlapDiffEndGraph ∧
     ¬sameContextDisjoint (normalize overlapDiffEndGraph)) ∧
    (sharedEndBig ∈ (normalize selfLoopGraph).nodes ∧
     sharedEndSmall ∈ (normalize selfLoopGraph).nodes ∧
     sharedEndBig ≠ sharedEndSmall ∧
     sharedEndBig.is_simprocedure = false ∧
     sharedEndSmall.is_simprocedure = false ∧
     sharedEndBig.callstack_key = sharedEndSmall.callstack_key ∧
     sharedEndBig.addr + sharedEndBig.size =
       sharedEndSmall.addr + sharedEndSmall.size ∧
     ¬sameContextDisjoint (normalize selfLoopGraph)) := by
  exact ⟨⟨by decide, by decide⟩, by decide⟩

/-- C1 (amended): after `normalize()` returns on a well-formed graph (unique
(address, context) node identities, positive sizes on non-SimProcedure
blocks, no self-loops), any two distinct non-SimProcedure nodes with the same
context key have distinct end addresses — normalization collapses each
(end address, context key) group to a single node.  Disjointness of full
`[addr, addr+size)` ranges does not hold in general, and without the
no-self-loop hypothesis even distinct end addresses fail (both shown by the
counterexample). -/
theorem C1_normalize_amended (g : Graph) (hG : GraphWF g) :
    ∀ n ∈ (normalize g).nodes, ∀ m ∈ (normalize g).nodes,
    n.is_simprocedure = false → m.is_simprocedure = false →
    n ≠ m → n.callstack_key = m.callstack_key →
    n.addr + n.size ≠ m.addr + m.size := by
  intro n hn m hm hnsp hmsp hne hkey heq
  have h := (normalize_wf g hG).2 (n.addr + n.size, n.callstack_key)
  apply hne
  apply mem_of_length_le_one h
  · rw [mem_graphGroup_iff]
    exact ⟨hn, hnsp, rfl, rfl⟩
  · rw [mem_graphGroup_iff]
    exact ⟨hm, hmsp, heq.symm, hkey.symm⟩

/-- C1 (amended) witness: the two surviving same-context blocks of the
normalized overlap graph indeed have distinct end addresses. -/
theorem C1_normalize_amended_witness :
    overlapA.addr + overlapA.size ≠ overlapB.addr + overlapB.size :=
  C1_normalize_amended overlapDiffEndGraph (by decide) overlapA (by decide)
    overlapB (by decide) (by decide) (by decide) (by decide) (by decide)

/-- C2 counterexample: `normalize()` is not idempotent on every graph.  With
a self-loop on the larger conflicting member, the first run removes the
member and immediately re-adds it via the re-pointed self-loop edge
(`graph.add_edge(p, new_node, data)` with `p == n`, source lines 715-716);
the resurrected node has no incoming edges any more, so only the second run
removes it, and the two results differ. -/
theorem C2_normalize_counterexample :
    sharedEndBig ∈ (normalize selfLoopGraph).nodes ∧
    sharedEndBig ∉ (normalize (normalize selfLoopGraph)).nodes ∧
    normalize (normalize selfLoopGraph) ≠ normalize selfLoopGraph := by
  exact ⟨by decide, by decide, by decide⟩

/-- C2 (amended): `normalize()` is idempotent on well-formed graphs (unique
(address, context) node identities, positive sizes on non-SimProcedure
blocks, no self-loops) — a second run finds no conflicting (end address,
context key) group, leaves the `while` loop immediately and returns the
graph unchanged (same nodes, same labelled edges).  On a graph with a
self-loop on a conflicting larger member idempotence fails (see the
counterexample). -/
theorem C2_normalize_idempotent (g : Graph) (hG : GraphWF g) :
    normalize (normalize g) = normalize g := by
  obtain ⟨hwfg, hgrp⟩ := normalize_wf g hG
  apply normalize_of_no_conflict
  rw [findConflict_eq_none_iff]
  intro en hen
  have hkeys := initFold_keys_nodup (normalize g).nodes [] List.nodup_nil
  have hgo := groupOf_of_mem (initBook (normalize g).nodes) en hkeys hen
  have hfin := (init_StWF (normalize g) hwfg).2.2.2 en.1
  have hnodup_en : en.2.Nodup := (init_StWF (normalize g) hwfg).2.2.1 en hen
  rw [hgo] at hfin
  calc en.2.length = en.2.toFinset.card :=
      (List.toFinset_card_of_nodup hnodup_en).symm
    _ = (graphGroup (normalize g) en.1).toFinset.card := by rw [hfin]
    _ ≤ (graphGroup (normalize g) en.1).length := List.toFinset_card_le _
    _ ≤ 1 := hgrp en.1

/-- C2 witness: on the shared-end overlap graph (which normalization really
rewrites: the larger block gets truncated), a second `normalize()` changes
nothing. -/
theorem C2_normalize_idempotent_witness :
    normalize (normalize sharedEndGraph) = normalize sharedEndGraph :=
  C2_normalize_idempotent sharedEndGraph (by decide)

/-- C7 counterexample: in the graph produced by the repository's own
`normalize()` on `sharedEndGraph`, the boring edge from the truncated node to
the smallest node exists, yet `get_exit_stmt_idx` on it fails (with a key
lookup error, not the missing-edge error) — refuting "fails exactly when
there is no direct edge, and otherwise returns the stored index". -/
theorem C7_get_exit_stmt_idx_counterexample :
    (normalize sharedEndGraph).hasEdge sharedEndTrunc sharedEndSmall = true ∧
    get_exit_stmt_idx (normalize sharedEndGraph) sharedEndTrunc sharedEndSmall =
      Except.error CFGErr.keyError := by
  refine ⟨by decide, by decide⟩

/-- C7 (amended) witness: both branches exercised concretely — an edge
carrying index 2 is looked up, a missing edge raises. -/
theorem C7_get_exit_stmt_idx_amended_witness :
    get_exit_stmt_idx
        { nodes := [sharedEndSmall, sharedEndTrunc]
          edges := [(sharedEndSmall, sharedEndTrunc,
            { jumpkind := "Ijk_Boring", exit_stmt_idx := some 2 })] }
        sharedEndSmall sharedEndTrunc = Except.ok 2 ∧
    get_exit_stmt_idx
        { nodes := [sharedEndSmall, sharedEndTrunc]
          edges := [(sharedEndSmall, sharedEndTrunc,
            { jumpkind := "Ijk_Boring", exit_stmt_idx := some 2 })] }
        sharedEndTrunc sharedEndSmall = Except.error CFGErr.angrCFGError := by
  constructor
  · exact (C7_get_exit_stmt_idx_amended _ sharedEndSmall sharedEndTrunc).2
      { jumpkind := "Ijk_Boring", exit_stmt_idx := some 2 } (by decide)
  · exact (C7_get_exit_stmt_idx_amended _ sharedEndTrunc sharedEndSmall).1
      (by decide)

/-- C6 counterexample: the original claim's "every larger member whose
computed new size is nonzero is replaced" (removed and rewired) fails when
the member carries a self-loop.  In the concrete round on `selfLoopGraph`
the conflict is at `(10, 0)`, the group sorts to `[small, big]`, the larger
member's computed new size `5 - 0` is nonzero, yet after its break step the
member is still a node of the graph — `original_predecessors` contains the
self-loop, and re-adding the re-pointed edge `(n, new_node, data)` puts the
removed node back (source lines 704-716); the re-pointed self-loop edge is
present too. -/
theorem C6_round_behaviour_counterexample :
    findConflict (initBook selfLoopGraph.nodes) = some (10, 0) ∧
    sortBySize (groupOf (initBook selfLoopGraph.nodes) (10, 0)) =
      [sharedEndSmall, sharedEndBig] ∧
    sharedEndSmall.addr - sharedEndBig.addr ≠ 0 ∧
    sharedEndBig ∈ (breakNode 0 sharedEndSmall [sharedEndSmall, sharedEndBig]
      { g := selfLoopGraph, book := initBook selfLoopGraph.nodes }
      sharedEndBig).g.nodes ∧
    (sharedEndBig, sharedEndTrunc,
      ({ jumpkind := "Ijk_Boring", exit_stmt_idx := some 0 } : EdgeData)) ∈
      (breakNode 0 sharedEndSmall [sharedEndSmall, sharedEndBig]
        { g := selfLoopGraph, book := initBook selfLoopGraph.nodes }
        sharedEndBig).g.edges := by
  exact ⟨by decide, by decide, by decide, by decide, by decide⟩

/-- C6 (amended): in each normalization round the conflicting group is
sorted by size ascending; the smallest member is kept untouched (it remains
a node of the round's result and becomes the group's sole bookkeeping
member); each larger member `n` with nonzero computed new size — provided
the round's state has no self-loop edges (a self-looped member is removed
but immediately re-added as the source of its re-pointed self-loop edge,
see the counterexample) — is replaced by the truncated node — same start
address, end address equal to the smallest member's start address,
instruction addresses exactly those strictly below the new end — which
receives `n`'s incoming edges and a boring out-edge to the smallest member,
while `n` itself leaves the graph; a member whose computed new size is zero
is left untouched. -/
theorem C6_round_behaviour :
    (∀ l : List CFGNode,
      List.Sorted sizeLE (sortBySize l) ∧ List.Perm (sortBySize l) l) ∧
    (∀ st : NormState, ∀ κ : Int × Nat, StWF st →
      findConflict st.book = some κ →
      ∀ sm : CFGNode, ∀ oth : List CFGNode,
      sortBySize (groupOf st.book κ) = sm :: oth →
      sm ∈ (processGroup κ st).g.nodes ∧
      groupOf (processGroup κ st).book κ = [sm]) ∧
    (∀ (e : Int) (k : Nat) (smallest n : CFGNode) (st : NormState)
      (all_nodes tl : List CFGNode),
      BreakHyps e k smallest n st →
      all_nodes.filter (fun i => decide (i.addr = smallest.addr)) =
        smallest :: tl →
      (n ∉ (breakNode k smallest all_nodes st n).g.nodes ∧
       truncatedNode n (smallest.addr - n.addr) k ∈
         (breakNode k smallest all_nodes st n).g.nodes ∧
       (truncatedNode n (smallest.addr - n.addr) k).addr = n.addr ∧
       (truncatedNode n (smallest.addr - n.addr) k).addr +
         (truncatedNode n (smallest.addr - n.addr) k).size = smallest.addr ∧
       (truncatedNode n (smallest.addr - n.addr) k).instruction_addrs =
         n.instruction_addrs.filter (fun a => decide (a < smallest.addr)) ∧
       (∀ p : CFGNode, ∀ dd : EdgeData, (p, n, dd) ∈ st.g.edges →
         (p, truncatedNode n (smallest.addr - n.addr) k, dd) ∈
           (breakNode k smallest all_nodes st n).g.edges) ∧
       (truncatedNode n (smallest.addr - n.addr) k, smallest,
         ({ jumpkind := "Ijk_Boring", exit_stmt_idx := none } : EdgeData)) ∈
         (breakNode k smallest all_nodes st n).g.edges)) ∧
    (∀ (k : Nat) (smallest n : CFGNode) (st : NormState)
      (all_nodes : List CFGNode), smallest.addr - n.addr = 0 →
      breakNode k smallest all_nodes st n = st) := by
  refine ⟨?_, ?_, ?_, ?_⟩
  · intro l
    exact ⟨List.sorted_insertionSort sizeLE l, List.perm_insertionSort sizeLE l⟩
  · intro st κ hwf hconf sm oth hs
    exact (processGroup_spec st κ hwf hconf).2.2 sm oth hs
  · intro e k smallest n st all_nodes tl H hfl
    obtain ⟨hnodes, hedges, hbook⟩ := breakNode_spec all_nodes tl H hfl
    refine ⟨?_, ?_, rfl, ?_, ?_, ?_, ?_⟩
    · rw [hnodes]
      intro hmem
      rcases List.mem_append.1 hmem with h1 | h1
      · have h2 := (List.mem_filter.1 h1).2
        simp at h2
      · have h2 := List.mem_singleton.1 h1
        have h3 := congrArg CFGNode.size h2
        have h4 : (truncatedNode n (smallest.addr - n.addr) k).size =
            smallest.addr - n.addr := rfl
        rw [h4] at h3
        have h5 := H.hn_end
        have h6 := H.hsm_end
        have h7 := H.hsm_pos
        omega
    · rw [hnodes]
      exact List.mem_append_right _ (List.mem_singleton.2 rfl)
    · show n.addr + (smallest.addr - n.addr) = smallest.addr
      omega
    · show n.instruction_addrs.filter
        (fun a => decide (a < n.addr + (smallest.addr - n.addr))) = _
      apply List.filter_congr
      intro a _
      rw [decide_eq_decide]
      omega
    · intro p dd hpd
      rw [hedges]
      apply List.mem_append_left
      apply List.mem_append_right
      have hin : ((p, n, dd) : CFGNode × CFGNode × EdgeData) ∈
          st.g.inEdges n := by
        rw [Graph.inEdges, List.mem_filter]
        exact ⟨hpd, by simp⟩
      exact List.mem_map_of_mem
        (fun x => (x.1, truncatedNode n (smallest.addr - n.addr) k, x.2.2))
        hin
    · rw [hedges]
      exact List.mem_append_right _ (List.mem_singleton.2 rfl)
  · intro k smallest n st all_nodes h
    unfold breakNode
    rw [if_pos h]

/-- C6 witness: the round behaviour exercised on the shared-end overlap
graph — the sort is checked on a concrete list, the smallest member survives
the round, the larger block is removed and replaced by its truncation with
the boring edge, and a zero-new-size break leaves the state untouched. -/
theorem C6_round_behaviour_witness :
    List.Sorted sizeLE (sortBySize [sharedEndBig, sharedEndSmall]) ∧
    (sharedEndSmall ∈ (processGroup (10, 0)
      { g := sharedEndGraph, book := initBook sharedEndGraph.nodes }).g.nodes ∧
     groupOf (processGroup (10, 0)
      { g := sharedEndGraph,
        book := initBook sharedEndGraph.nodes }).book (10, 0) =
      [sharedEndSmall]) ∧
    (sharedEndBig ∉ (breakNode 0 sharedEndSmall [sharedEndSmall, sharedEndBig]
      { g := sharedEndGraph, book := initBook sharedEndGraph.nodes }
      sharedEndBig).g.nodes ∧
     (sharedEndTrunc, sharedEndSmall,
       ({ jumpkind := "Ijk_Boring", exit_stmt_idx := none } : EdgeData)) ∈
      (breakNode 0 sharedEndSmall [sharedEndSmall, sharedEndBig]
        { g := sharedEndGraph, book := initBook sharedEndGraph.nodes }
        sharedEndBig).g.edges) ∧
    breakNode 0 sharedEndSmall [sharedEndSmall, sharedEndBig]
      { g := sharedEndGraph, book := initBook sharedEndGraph.nodes }
      sharedEndSmall =
      { g := sharedEndGraph, book := initBook sharedEndGraph.nodes } := by
  have hG : GraphWF sharedEndGraph := by decide
  have hst := init_StWF sharedEndGraph hG
  have H : BreakHyps 10 0 sharedEndSmall sharedEndBig
      { g := sharedEndGraph, book := initBook sharedEndGraph.nodes } :=
    { hG := hG
      hmatch := fun κ' _ => hst.2.2.2 κ'
      hn_mem := by decide
      hn_key := by decide
      hn_end := by decide
      hn_sp := by decide
      hsm_mem := by decide
      hsm_key := by decide
      hsm_end := by decide
      hsm_sp := by decide
      hsm_pos := by decide
      hlt := by decide }
  have hpart3 := C6_round_behaviour.2.2.1 10 0 sharedEndSmall sharedEndBig
    { g := sharedEndGraph, book := initBook sharedEndGraph.nodes }
    [sharedEndSmall, sharedEndBig] [] H (by decide)
  refine ⟨(C6_round_behaviour.1 [sharedEndBig, sharedEndSmall]).1, ?_, ?_, ?_⟩
  · exact C6_round_behaviour.2.1
      { g := sharedEndGraph, book := initBook sharedEndGraph.nodes }
      (10, 0) hst (by decide) sharedEndSmall [sharedEndBig] (by decide)
  · exact ⟨hpart3.1, hpart3.2.2.2.2.2.2⟩
  · exact C6_round_behaviour.2.2.2 0 sharedEndSmall sharedEndSmall
      { g := sharedEndGraph, book := initBook sharedEndGraph.nodes }
      [sharedEndSmall, sharedEndBig] (by decide)

/-! ## `CFGBase._analyze_function_features` (claims C3, C5, C8)

The knowledge-store `Function` and the transition-graph node variants live in
the missing `knowledge.py`; they are modelled from the spec (§3 Function,
§9's closed tagged-variant {BasicBlock, ExternalHook, FunctionRef}).
Per §4.4 the scratch graph is built from "the function's transition graph",
so `func.graph` is modelled as `func.transition_graph`. -/

/-- A transition-graph node: an ordinary block, a `Function` reference, or a
`HookNode` (external hook). -/
inductive FNode where
  | block : Int → Nat → FNode
  | funcRef : Int → FNode
  | hook : Int → FNode
deriving DecidableEq

/-- The address of a transition-graph node. -/
def FNode.addr : FNode → Int
  | FNode.block a _ => a
  | FNode.funcRef a => a
  | FNode.hook a => a

/-- A function's transition graph: nodes plus `type`-labelled edges. -/
structure TransGraph where
  nodes : List FNode
  edges : List (FNode × FNode × String)
deriving DecidableEq

/-- Modelled from the spec: the knowledge store's `Function` record (§3):
address, tri-state returning flag, endpoint set, member-block set, transition
graph and syscall flag. -/
structure Function where
  addr : Int
  returning : Option Bool
  endpoints : List FNode
  nodes : List FNode
  transition_graph : TransGraph
  is_syscall : Bool
deriving DecidableEq

/-- A hook (SimProcedure class): `NO_RET = none` models a hooker without the
`NO_RET` attribute (`hasattr` fails). -/
structure Hooker where
  NO_RET : Option Bool
deriving DecidableEq

/-- The external collaborators of `_analyze_function_features`:
`project.is_hooked`/`hooked_by` and the CFG graph behind `get_any_node`. -/
structure Env where
  hooks : Int → Option Hooker
  cfg : Graph

/-- Embeds `CFGBase.get_any_node(addr, is_syscall)` with `anyaddr=False`: the first
graph node (in iteration order) with zero loop count at exactly this address,
subject to the tri-state syscall filter. -/
def get_any_node_from : List CFGNode → Int → Option Bool → Option CFGNode
  | [], _, _ => none
  | n :: rest, addr, is_syscall =>
    if n.looping_times = 0 ∧ addr = n.addr then
      match is_syscall with
      | none => some n
      | some b =>
        if n.is_syscall = b then some n
        else get_any_node_from rest addr is_syscall
    else get_any_node_from rest addr is_syscall

/-- Embeds `CFGBase.get_any_node` on a graph. -/
def get_any_node (g : Graph) (addr : Int) (is_syscall : Option Bool) :
    Option CFGNode :=
  get_any_node_from g.nodes addr is_syscall

/-- Lookup in the knowledge store (`self.kb.functions.function(addr=...)`)
against the current function list. -/
def kbFind (kb : List Function) (a : Int) : Option Function :=
  kb.find? (fun f => decide (f.addr = a))

/-- The returning flag of the function at an address; an address missing
from the store yields `none` (unknown). -/
def stateReturning (kb : List Function) (a : Int) : Option Bool :=
  match kbFind kb a with
  | some f => f.returning
  | none => none

/-- The non-fake out-edges of `src` in the transition graph
(`[edge for edge in transition_graph.edges(nbunch=[src], data=True)
if edge[2]['type'] != 'fake_return']`). -/
def nonFakeOut (tg : TransGraph) (src : FNode) :
    List (FNode × FNode × String) :=
  (tg.edges.filter (fun e => decide (e.1 = src))).filter
    (fun e => decide (¬e.2.2 = "fake_return"))

/-- Does the first non-fake out-edge of `src` call a function already known
to be non-returning?  Modelled from the spec for the store-miss case: a call
target absent from the store is not "already known non-returning", so the
fake-return edge is kept (the Python would fault on `None.returning`). -/
def noretTarget (kb : List Function) (tg : TransGraph) (src : FNode) : Bool :=
  match nonFakeOut tg src with
  | [] => false
  | e2 :: _ =>
    match kbFind kb (FNode.addr e2.2.1) with
    | none => false
    | some tf => decide (tf.returning = some false)

/-- The scratch graph's edge set: the transition graph's edges minus every
fake-return edge whose associated call target is already known
non-returning. -/
def tmpEdges (kb : List Function) (func : Function) :
    List (FNode × FNode × String) :=
  func.transition_graph.edges.filter
    (fun e => !(decide (e.2.2 = "fake_return") &&
      noretTarget kb func.transition_graph e.1))

/-- The temporary local endpoints: scratch-graph nodes with out-degree 0. -/
def temporaryLocalEndpoints (kb : List Function) (func : Function) :
    List FNode :=
  func.transition_graph.nodes.filter
    (fun a => ((tmpEdges kb func).filter
      (fun e => decide (e.1 = a))).isEmpty)

/-- The `(transition_type, endpoint)` pairs collected from the temporary
local endpoints (source lines 569-586). -/
def collectTempEndpoints (func : Function) (tle : List FNode) :
    List (Option String × FNode) :=
  tle.foldl
    (fun acc le =>
      if le ∈ func.transition_graph.nodes then
        let in_edges := func.transition_graph.edges.filter
          (fun e => decide (e.2.1 = le))
        let transition_type : Option String :=
          match in_edges with
          | [] => none
          | e :: _ => some e.2.2
        let out_edges := func.transition_graph.edges.filter
          (fun e => decide (e.1 = le))
        match out_edges with
        | [] => acc ++ [(transition_type, le)]
        | _ :: _ =>
          acc ++ out_edges.filterMap
            (fun e => if e.2.2 = "fake_return" then none
              else some (transition_type, e.2.1))
      else acc)
    []

/-- Classify one temporary endpoint (source lines 588-627), producing the
`(transition_type, outcome)` entry appended to `all_endpoints_returning`.
Modelled from the spec where the Python assumes lookups succeed: a hook
lookup miss and the node-keyed store lookup of an endpoint outside
`func.nodes` both yield an unknown outcome. -/
def classifyEndpoint (env : Env) (kb : List Function) (func : Function)
    (ttype : Option String) (endpoint : FNode) :
    Option String × Option Bool :=
  if endpoint ∈ func.nodes then
    match endpoint with
    | FNode.funcRef a => (ttype, stateReturning kb a)
    | FNode.hook a =>
      (ttype,
        match env.hooks a with
        | some hooker =>
          match hooker.NO_RET with
          | some b => some (!b)
          | none => none
        | none => none)
    | FNode.block _ _ =>
      let successors := (func.transition_graph.edges.filter
        (fun e => decide (e.1 = endpoint))).map (fun e => e.2.1)
      let all_noret := successors.foldl
        (fun acc suc =>
          match suc with
          | FNode.funcRef a =>
            if stateReturning kb a = some false then acc else false
          | _ =>
            match get_any_node env.cfg (FNode.addr endpoint)
              (some func.is_syscall) with
            | some nd => if nd.no_ret = some true then acc else false
            | none => acc)
        true
      if all_noret then (ttype, some true) else (ttype, none)
  else
    -- `self.kb.functions.function(call_target)` is keyed by the node object
    -- against an integer-keyed store, so the lookup always misses.
    (none, none)

/-- The whole scratch-graph analysis (source lines 534-637) for one function
with no endpoints and no deciding hook. -/
def graphAnalysis (env : Env) (kb : List Function) (func : Function) :
    Function :=
  let tle := temporaryLocalEndpoints kb func
  if tle.isEmpty then func
  else
    let temporary_endpoints := collectTempEndpoints func tle
    let aer := temporary_endpoints.map
      (fun te => classifyEndpoint env kb func te.1 te.2)
    let func1 :=
      if !aer.isEmpty && aer.all (fun x => decide (x.2 = some false)) then
        { func with returning := some false }
      else func
    if !aer.isEmpty &&
        aer.all (fun x => decide (x = (some "transition", some true))) then
      { func1 with returning := some true }
    else func1

/-- The per-function body of `_analyze_function_features` (source lines
508-637): skip functions whose flag is set, mark endpoint-bearing functions
returning, decide hooked functions by their declared `NO_RET` flag, and fall
through to the scratch-graph analysis otherwise. -/
def processOneFunction (env : Env) (kb : List Function) (func : Function) :
    Function :=
  if ¬(func.returning = none) then func
  else if ¬(func.endpoints = []) then { func with returning := some true }
  else
    match env.hooks func.addr with
    | some hooker =>
      match hooker.NO_RET with
      | some true => { func with returning := some false }
      | some false => { func with returning := some true }
      | none => graphAnalysis env kb func
    | none => graphAnalysis env kb func

/-- The in-place iteration of `_analyze_function_features` over the store:
already-processed functions (`done`) and the remaining ones form the store
state visible to each body run. -/
def affAux (env : Env) : List Function → List Function → List Function
  | done, [] => done
  | done, f :: rest =>
    affAux env (done ++ [processOneFunction env (done ++ f :: rest) f]) rest

/-- One pass of `CFGBase._analyze_function_features` over all functions of
the store (the `self._changed_functions is None` branch). -/
def analyzeFunctionFeatures (env : Env) (kb : List Function) :
    List Function :=
  affAux env [] kb

/-- Repeated passes of the return analyzer. -/
def iterateAFF (env : Env) : Nat → List Function → List Function
  | 0, kb => kb
  | m + 1, kb => iterateAFF env m (analyzeFunctionFeatures env kb)

theorem affAux_preserve_done (env : Env) :
    ∀ (todo done : List Function) (i : Nat), i < done.length →
    (affAux env done todo)[i]? = done[i]? := by
  intro todo
  induction todo with
  | nil => intro done i h; rfl
  | cons f rest ih =>
    intro done i h
    rw [show affAux env done (f :: rest) =
      affAux env (done ++ [processOneFunction env (done ++ f :: rest) f])
        rest from rfl]
    rw [ih (done ++ [processOneFunction env (done ++ f :: rest) f]) i
      (by rw [List.length_append]; omega)]
    rw [List.getElem?_append, if_pos h]

theorem affAux_process (env : Env) :
    ∀ (todo done : List Function) (i : Nat) (f : Function),
    todo[i]? = some f →
    ∃ st : List Function, (affAux env done todo)[done.length + i]? =
      some (processOneFunction env st f) := by
  intro todo
  induction todo with
  | nil => intro done i f h; cases h
  | cons g rest ih =>
    intro done i f h
    cases i with
    | zero =>
      have hg : g = f := by
        rw [List.getElem?_cons_zero] at h
        injection h
      subst hg
      refine ⟨done ++ g :: rest, ?_⟩
      rw [show affAux env done (g :: rest) =
        affAux env (done ++ [processOneFunction env (done ++ g :: rest) g])
          rest from rfl]
      rw [affAux_preserve_done env rest _ (done.length + 0)
        (by rw [List.length_append]; simp)]
      rw [show done.length + 0 = done.length from rfl]
      rw [List.getElem?_append_right (by omega)]
      simp
    | succ j =>
      have hj : rest[j]? = some f := by
        rw [List.getElem?_cons_succ] at h
        exact h
      obtain ⟨st, hst⟩ := ih
        (done ++ [processOneFunction env (done ++ g :: rest) g]) j f hj
      refine ⟨st, ?_⟩
      rw [show affAux env done (g :: rest) =
        affAux env (done ++ [processOneFunction env (done ++ g :: rest) g])
          rest from rfl]
      rw [show done.length + (j + 1) =
        (done ++ [processOneFunction env (done ++ g :: rest) g]).length + j
        from by rw [List.length_append]; simp; omega]
      exact hst

theorem analyzeFF_entry (env : Env) (kb : List Function) (i : Nat)
    (f : Function) (h : kb[i]? = some f) :
    ∃ st : List Function, (analyzeFunctionFeatures env kb)[i]? =
      some (processOneFunction env st f) := by
  have := affAux_process env kb [] i f h
  simpa [analyzeFunctionFeatures] using this

theorem processOne_of_set (env : Env) (st : List Function) (f : Function)
    (b : Bool) (hset : f.returning = some b) :
    processOneFunction env st f = f := by
  unfold processOneFunction
  rw [if_pos (by rw [hset]; simp)]

/-- C3: a pass of the return analyzer leaves a function whose returning flag
is already set (true or false) completely unchanged — the pass skips it — so
the flag never flips on any number of subsequent passes. -/
theorem C3_returning_never_changes (env : Env) (kb : List Function) (i : Nat)
    (f : Function) (b : Bool) (hf : kb[i]? = some f)
    (hset : f.returning = some b) :
    ∀ m : Nat, (iterateAFF env m kb)[i]? = some f := by
  intro m
  induction m generalizing kb with
  | zero => exact hf
  | succ m ih =>
    rw [show iterateAFF env (m + 1) kb =
      iterateAFF env m (analyzeFunctionFeatures env kb) from rfl]
    apply ih
    obtain ⟨st, hst⟩ := analyzeFF_entry env kb i f hf
    rw [hst, processOne_of_set env st f b hset]

/-- The environment and flagged function of the C3 witness. -/
def emptyEnv : Env :=
  { hooks := fun _ => none, cfg := { nodes := [], edges := [] } }

/-- A function whose returning flag is already decided. -/
def c3Func : Function :=
  { addr := 100, returning := some true, endpoints := [], nodes := [],
    transition_graph := { nodes := [], edges := [] }, is_syscall := false }

/-- C3 witness: three passes over a store holding a decided function leave
it untouched. -/
theorem C3_returning_never_changes_witness :
    (iterateAFF emptyEnv 3 [c3Func])[0]? = some c3Func :=
  C3_returning_never_changes emptyEnv [c3Func] 0 c3Func true rfl rfl 3

/-- C8: one pass of the return analyzer marks any function with unknown
return status and at least one endpoint block as returning. -/
theorem C8_endpoints_mark_returning (env : Env) (kb : List Function)
    (i : Nat) (f : Function) (hf : kb[i]? = some f)
    (hunk : f.returning = none) (hep : ¬(f.endpoints = [])) :
    ∃ g2 : Function, (analyzeFunctionFeatures env kb)[i]? = some g2 ∧
      g2.returning = some true := by
  obtain ⟨st, hst⟩ := analyzeFF_entry env kb i f hf
  refine ⟨{ f with returning := some true }, ?_, rfl⟩
  rw [hst]
  congr 1
  unfold processOneFunction
  rw [if_neg (by rw [hunk]; simp), if_pos hep]

/-- A function with unknown return status and one endpoint block: a single
block that ends in a return edge is recorded as an endpoint by the
knowledge store. -/
def c8Func : Function :=
  { addr := 200, returning := none, endpoints := [FNode.block 200 0],
    nodes := [FNode.block 200 0],
    transition_graph := { nodes := [FNode.block 200 0], edges := [] },
    is_syscall := false }

/-- C8 witness: the single-endpoint function is marked returning in one
pass. -/
theorem C8_endpoints_mark_returning_witness :
    ∃ g2 : Function, (analyzeFunctionFeatures emptyEnv [c8Func])[0]? =
      some g2 ∧ g2.returning = some true :=
  C8_endpoints_mark_returning emptyEnv [c8Func] 0 c8Func rfl rfl (by decide)

/-- A hooker that does not declare the `NO_RET` attribute. -/
def c5Hooker : Hooker := { NO_RET := none }

/-- An environment hooking address 100 with the attribute-less hooker. -/
def c5Env : Env :=
  { hooks := fun a => if a = 100 then some c5Hooker else none
    cfg := { nodes := [], edges := [] } }

/-- A hooked function with unknown return status, no endpoints and an empty
transition graph. -/
def c5Func : Function :=
  { addr := 100, returning := none, endpoints := [], nodes := [],
    transition_graph := { nodes := [], edges := [] }, is_syscall := false }

/-- C5 counterexample: a function hooked by an external that declares no
`NO_RET` flag is *not* marked returning — the hook check falls through to
the scratch-graph analysis, which here leaves the flag unknown — refuting
"if the function is hooked and not flagged no-return, its returning flag is
set to true in that pass". -/
theorem C5_hooked_counterexample :
    c5Env.hooks c5Func.addr = some c5Hooker ∧
    c5Hooker.NO_RET = none ∧
    analyzeFunctionFeatures c5Env [c5Func] = [c5Func] ∧
    ¬((analyzeFunctionFeatures c5Env [c5Func])[0]?.map Function.returning =
      some (some true)) := by
  refine ⟨by decide, rfl, by decide, by decide⟩

/-- C5 (amended): for a function with unknown return status and no endpoints
whose address is hooked, the pass decides the flag only when the hook
*declares* a `NO_RET` flag: a set flag yields returning = false, a declared
but unset flag yields returning = true; an undeclared flag falls through to
the graph analysis (see the counterexample). -/
theorem C5_hooked_amended (env : Env) (kb : List Function) (i : Nat)
    (f : Function) (h : Hooker) (hf : kb[i]? = some f)
    (hunk : f.returning = none) (hep : f.endpoints = [])
    (hhook : env.hooks f.addr = some h) :
    (h.NO_RET = some true →
      ∃ g2 : Function, (analyzeFunctionFeatures env kb)[i]? = some g2 ∧
        g2.returning = some false) ∧
    (h.NO_RET = some false →
      ∃ g2 : Function, (analyzeFunctionFeatures env kb)[i]? = some g2 ∧
        g2.returning = some true) := by
  obtain ⟨st, hst⟩ := analyzeFF_entry env kb i f hf
  constructor
  · intro hnr
    have hh : h = { NO_RET := some true } := by
      cases h with
      | mk nr =>
        have hnr2 : nr = some true := hnr
        rw [hnr2]
    refine ⟨{ f with returning := some false }, ?_, rfl⟩
    rw [hst]
    congr 1
    unfold processOneFunction
    rw [if_neg (by rw [hunk]; simp), if_neg (by rw [hep]; simp), hhook, hh]
  · intro hnr
    have hh : h = { NO_RET := some false } := by
      cases h with
      | mk nr =>
        have hnr2 : nr = some false := hnr
        rw [hnr2]
    refine ⟨{ f with returning := some true }, ?_, rfl⟩
    rw [hst]
    congr 1
    unfold processOneFunction
    rw [if_neg (by rw [hunk]; simp), if_neg (by rw [hep]; simp), hhook, hh]

/-- An environment hooking address 100 with a set `NO_RET` flag. -/
def c5EnvNoRet : Env :=
  { hooks := fun a => if a = 100 then some { NO_RET := some true } else none
    cfg := { nodes := [], edges := [] } }

/-- An environment hooking address 100 with a declared-but-unset `NO_RET`
flag. -/
def c5EnvRet : Env :=
  { hooks := fun a => if a = 100 then some { NO_RET := some false } else none
    cfg := { nodes := [], edges := [] } }

/-- C5 (amended) witness: both declared-`NO_RET` cases exercised on a
concrete hooked function. -/
theorem C5_hooked_amended_witness :
    (∃ g2 : Function, (analyzeFunctionFeatures c5EnvNoRet [c5Func])[0]? =
      some g2 ∧ g2.returning = some false) ∧
    (∃ g2 : Function, (analyzeFunctionFeatures c5EnvRet [c5Func])[0]? =
      some g2 ∧ g2.returning = some true) :=
  ⟨(C5_hooked_amended c5EnvNoRet [c5Func] 0 c5Func { NO_RET := some true }
      rfl rfl rfl (by decide)).1 rfl,
   (C5_hooked_amended c5EnvRet [c5Func] 0 c5Func { NO_RET := some false }
      rfl rfl rfl (by decide)).2 rfl⟩

end Angr
